import Mathlib

set_option linter.dupNamespace false

/-!
# GoChatServer: the connection registry and the broadcast relay

A shallow embedding of `src/main.go`.  The program keeps two package-level
variables, the map `clients` and the unbuffered channel `broadcast`, and runs
one goroutine `handleConnections` per websocket plus a single goroutine
`handleMessages`.  The embedding threads an explicit `State` through the
statements of these two functions; results of the websocket library
(`Upgrade`, `ReadJSON`, `WriteJSON`) and the order chosen by `range` over a
map are inputs of the transition functions.

The program takes no lock.  `Proc`, `pstep` and `prun` give its executions
with the goroutines interleaved: a handler's write to `clients` has a begin
and an end, the relay loop advances one key at a time, and an access to
`clients` that begins while a write to it is in progress ends the process,
which is what the Go runtime does when it detects the overlap.
-/

namespace GoChat

/-- A `*websocket.Conn`: only the pointer identity matters to the program. -/
abbrev Conn := Nat

/-- The struct `Message` (main.go 24-28). -/
structure Message where
  Email : String
  Username : String
  Message : String
deriving DecidableEq, Repr

/-- The type `map[*websocket.Conn]bool` as an association list. -/
abbrev ClientMap := List (Conn × Bool)

/-- Key set of a map, in the order the association list stores it. -/
def keys (m : ClientMap) : List Conn := m.map Prod.fst

/-- Map assignment `m[k] = v`: overwrite the entry of `k`, or add one. -/
def mapSet : ClientMap → Conn → Bool → ClientMap
  | [], k, v => [(k, v)]
  | (k', v') :: rest, k, v =>
      if k' = k then (k, v) :: rest else (k', v') :: mapSet rest k v

/-- The builtin `delete(m, k)`: drops the entry of `k`; total, returns no error. -/
def mapDelete (m : ClientMap) (k : Conn) : ClientMap :=
  m.filter (fun e => decide (e.1 ≠ k))

/-- Which goroutine called `Close()` on a connection. -/
inductive Closer where
  | handler
  | relay
deriving DecidableEq, Repr

/-- Program state: the two globals of main.go, the control state of the
goroutines, and the history of calls made on the connections. -/
structure State where
  /-- The global `clients` (main.go 12). -/
  clients : ClientMap
  /-- The global `broadcast` (main.go 14), an unbuffered channel: the queue of
  goroutines blocked in `broadcast <- msg`, each with the value it sends. -/
  broadcast : List (Conn × Message)
  /-- Identity that the next successful `Upgrade` returns. -/
  next : Conn
  /-- Connections whose `handleConnections` goroutine has not returned. -/
  handlers : List Conn
  /-- Successful `WriteJSON` calls, oldest first. -/
  written : List (Conn × Message)
  /-- Calls of `Close()`, oldest first. -/
  closed : List (Conn × Closer)
  /-- Connections on which `ReadJSON` returned an error. -/
  readErrs : List Conn
  /-- Connections on which `WriteJSON` returned an error. -/
  writeErrs : List Conn
  /-- Set by `log.Fatal`, which ends the process. -/
  exited : Bool
deriving DecidableEq, Repr

/-- State at program start: empty map, nobody blocked on the channel. -/
def init : State :=
  { clients := [], broadcast := [], next := 0, handlers := [], written := [],
    closed := [], readErrs := [], writeErrs := [], exited := false }

/-- Messages waiting on the channel, in arrival order. -/
def pending (st : State) : List Message := st.broadcast.map Prod.snd

/-- Goroutines blocked in a send on the channel. -/
def senders (st : State) : List Conn := st.broadcast.map Prod.fst

/-- Messages successfully written to connection `c`, oldest first. -/
def writtenTo (c : Conn) (st : State) : List Message :=
  (st.written.filter (fun e => decide (e.1 = c))).map Prod.snd

/-- Number of `Close()` calls made on connection `c`. -/
def closeCount (c : Conn) (st : State) : Nat :=
  (st.closed.filter (fun e => decide (e.1 = c))).length

/-- Number of `Close()` calls made on `c` by goroutine kind `who`. -/
def closeCountBy (who : Closer) (c : Conn) (st : State) : Nat :=
  (st.closed.filter (fun e => decide (e = (c, who)))).length

/-! ## handleConnections (main.go 59-95) -/

/-- Lines 61-74: `Upgrade`; on error `log.Fatal`, which exits the process;
otherwise the close is deferred and the new connection is put in `clients`. -/
def upgrade (ok : Bool) (st : State) : State :=
  if ok then
    { st with
      clients := mapSet st.clients st.next true
      handlers := st.handlers ++ [st.next]
      next := st.next + 1 }
  else
    { st with exited := true }

/-- Lines 83-94 and the deferred function of lines 66-71: one iteration of the
read loop of the handler of `ws`.  `r` is what `ReadJSON` produced: `none` for
an error.  On error the entry is deleted, the loop is left and the deferred
`Close()` runs; otherwise the message is sent on `broadcast`. -/
def readLoop (ws : Conn) (r : Option Message) (st : State) : State :=
  match r with
  | none =>
      { st with
        readErrs := st.readErrs ++ [ws]
        clients := mapDelete st.clients ws
        handlers := st.handlers.filter (fun c => decide (c ≠ ws))
        closed := st.closed ++ [(ws, Closer.handler)] }
  | some msg =>
      { st with broadcast := st.broadcast ++ [(ws, msg)] }

/-! ## handleMessages (main.go 102-116) -/

/-- Lines 108-113, the body of the range loop for one `client`: `fails` lists
the connections on which `WriteJSON` returns an error. -/
def writeClient (msg : Message) (fails : List Conn) (client : Conn) (st : State) : State :=
  if client ∈ fails then
    { st with
      writeErrs := st.writeErrs ++ [client]
      closed := st.closed ++ [(client, Closer.relay)]
      clients := mapDelete st.clients client }
  else
    { st with written := st.written ++ [(client, msg)] }

/-- Line 107, `for client := range clients`: the keys are produced in the
order `order`; a key deleted before it is reached is not produced. -/
def rangeClients (msg : Message) (fails : List Conn) : List Conn → State → State
  | [], st => st
  | client :: rest, st =>
      if client ∈ keys st.clients then
        rangeClients msg fails rest (writeClient msg fails client st)
      else
        rangeClients msg fails rest st

/-- Lines 105-114, one iteration of the outer loop: receive from `broadcast`
(blocks, `none`, when nobody is sending), then one pass over `clients`.
`order` is the iteration order the runtime picked, a permutation of the keys. -/
def relayRound (order fails : List Conn) (st : State) : Option State :=
  match st.broadcast with
  | [] => none
  | (_, msg) :: rest =>
      if order.Perm (keys st.clients) then
        some (rangeClients msg fails order { st with broadcast := rest })
      else none

/-- The loop of `handleMessages`, run for as many rounds as `sched` lists
(one iteration order and one failure set per round). -/
def handleMessages : List (List Conn × List Conn) → State → Option State
  | [], st => some st
  | (order, fails) :: sched, st =>
      match relayRound order fails st with
      | none => none
      | some st' => handleMessages sched st'

/-! ## Serial executions

Executions in which no goroutine runs while another is between the first and
the last statement of a handler step or of a relay round.  The executions in
which the goroutines do interleave inside a round, and those in which their
accesses to `clients` overlap, are those of `prun` further down; lemma
`run_is_prun` shows that every serial execution is one of them. -/

/-- One step of a serial execution. -/
inductive Event where
  /-- A request reaches `/ws`; `ok` tells whether `Upgrade` succeeds. -/
  | connect (ok : Bool)
  /-- `ReadJSON` returns in the handler of `ws`. -/
  | read (ws : Conn) (r : Option Message)
  /-- The relay loop receives a message and performs one round. -/
  | relay (order fails : List Conn)
deriving DecidableEq, Repr

/-- A step of `handleConnections` for the given event, `none` when the
goroutine cannot take it: a handler reads only while it is running and is not
blocked in its send. -/
def handleConnections (ev : Event) (st : State) : Option State :=
  match ev with
  | Event.connect ok => some (upgrade ok st)
  | Event.read ws r =>
      if ws ∈ st.handlers ∧ ws ∉ senders st then some (readLoop ws r st) else none
  | Event.relay _ _ => none

/-- One step of a serial execution; nothing runs after `log.Fatal`. -/
def step (st : State) (ev : Event) : Option State :=
  if st.exited then none
  else
    match ev with
    | Event.relay order fails => relayRound order fails st
    | ev => handleConnections ev st

/-- A serial execution: each event runs to its end before the next starts. -/
def run : State → List Event → Option State
  | st, [] => some st
  | st, ev :: evs =>
      match step st ev with
      | none => none
      | some st' => run st' evs

/-- The payload of the round-trip scenario. -/
def hi : Message := { Email := "a@x.com", Username := "alice", Message := "hi" }

/-- Connections 0 and 1 registered, handler 0 blocked sending `hi`. -/
def twoClients : State :=
  { clients := [(0, true), (1, true)], broadcast := [(0, hi)], next := 2, handlers := [0, 1],
    written := [], closed := [], readErrs := [], writeErrs := [], exited := false }

/-- Invariant of the state of the two globals and of the histories, kept by
every statement of the program. -/
structure Inv (st : State) : Prop where
  /-- A map holds one entry per key. -/
  nodup : (keys st.clients).Nodup
  /-- The only value ever stored is `true`. -/
  vals : ∀ e ∈ st.clients, e.2 = true
  keys_lt : ∀ c ∈ keys st.clients, c < st.next
  handlers_lt : ∀ c ∈ st.handlers, c < st.next
  written_lt : ∀ e ∈ st.written, e.1 < st.next
  /-- A connection on which `Close()` was called is not a key of `clients`. -/
  closed_gone : ∀ e ∈ st.closed, e.1 < st.next ∧ e.1 ∉ keys st.clients
  /-- A connection that was registered and no longer is has had a failure. -/
  gone_failed : ∀ c, c < st.next → c ∉ keys st.clients → c ∈ st.readErrs ∨ c ∈ st.writeErrs
  readErrs_nodup : st.readErrs.Nodup
  readErrs_done : ∀ c ∈ st.readErrs, c < st.next ∧ c ∉ st.handlers
  writeErrs_nodup : st.writeErrs.Nodup
  writeErrs_gone : ∀ c ∈ st.writeErrs, c < st.next ∧ c ∉ keys st.clients
  /-- The handler closes a connection once per read error on it. -/
  closed_handler : ∀ c, closeCountBy Closer.handler c st = st.readErrs.count c
  /-- The relay loop closes a connection once per write error on it. -/
  closed_relay : ∀ c, closeCountBy Closer.relay c st = st.writeErrs.count c
  /-- Only a registered connection's handler can be blocked in a send. -/
  senders_lt : ∀ c ∈ senders st, c < st.next

/-! ## The goroutines interleaved -/

/-- A write to `clients` that a handler has begun and not completed:
`clients[ws] = true` (line 74) or `delete(clients, ws)` (line 89). -/
inductive MapWrite where
  | insert
  | delete
deriving DecidableEq, Repr

/-- The running process. -/
structure Proc where
  /-- Globals and histories. -/
  st : State
  /-- The handler that is inside a write to `clients`, if any. -/
  writer : Option (Conn × MapWrite)
  /-- Where the relay loop is: `none` before its first receive, otherwise the
  message received last and the keys its `range` has still to produce. -/
  pass : Option (Message × List Conn)
  /-- Set when the runtime ends the process on overlapping accesses to
  `clients` (`fatal error: concurrent map writes`, `concurrent map iteration
  and map write`). -/
  crashed : Bool
deriving DecidableEq, Repr

/-- Process at program start. -/
def pinit : Proc := { st := init, writer := none, pass := none, crashed := false }

/-- Keys the pass in progress has still to produce; empty when the relay loop
waits on the channel. -/
def todo (p : Proc) : List Conn :=
  match p.pass with
  | none => []
  | some (_, rest) => rest

/-- What the pass in progress has still to write to `c`: the current message
when `c` is among the keys to come. -/
def owed (c : Conn) (p : Proc) : List Message :=
  match p.pass with
  | none => []
  | some (m, rest) => if c ∈ rest then [m] else []

/-- An entry created during a `range` may be produced by it or skipped: with
`some i` the new key `ws` joins the keys to come of a pass in progress at
position `i`, with `none` it is skipped. -/
def produce (ws : Conn) :
    Option Nat → Option (Message × List Conn) → Option (Message × List Conn)
  | some i, some (m, k :: rest) => some (m, (k :: rest).take i ++ ws :: (k :: rest).drop i)
  | _, pass => pass

/-- Lines 107-113 for the key `client` alone: one iteration of the range loop,
`fail` telling whether `WriteJSON` returns an error. -/
def iteration (msg : Message) (fail : Bool) (client : Conn) (st : State) : State :=
  rangeClients msg (if fail then [client] else []) [client] st

/-- One step of one goroutine. -/
inductive Op where
  /-- `Upgrade` returns in a new handler; on success the handler goes on to
  line 74 and begins `clients[ws] = true`. -/
  | connect (ok : Bool)
  /-- The assignment of line 74 completes; `pos` as in `produce`. -/
  | registered (pos : Option Nat)
  /-- `ReadJSON` returns in the handler of `ws`; on an error the handler goes
  on to line 89 and begins `delete(clients, ws)`. -/
  | read (ws : Conn) (r : Option Message)
  /-- The delete of line 89 completes; the handler of `ws` leaves its loop and
  the deferred `Close()` runs.  The histories record the failed read with
  this step, which is `readLoop ws none`. -/
  | deleted (ws : Conn)
  /-- The relay loop receives from `broadcast` (line 105) and starts its
  `range` (line 107), which will produce the keys in the order `order`. -/
  | recv (order : List Conn)
  /-- The relay loop makes one iteration of its `range`. -/
  | iter (fail : Bool)
deriving DecidableEq, Repr

/-- One step of the process, `none` when the goroutine cannot take it.
Nothing runs once the process has ended.  A handler's write to `clients`
lasts from its begin to its end; an access to `clients` that begins in
between, a write of another handler or an iteration of the relay loop (the
next key, and the delete of line 112 when the write fails), ends the
process.  The receive of line 105 does not touch `clients`; the relay loop
receives only when its previous pass has produced all its keys. -/
def pstep (p : Proc) (op : Op) : Option Proc :=
  if p.st.exited = true ∨ p.crashed = true then none
  else
    match op with
    | Op.connect false => some { p with st := upgrade false p.st }
    | Op.connect true =>
        match p.writer with
        | some _ => some { p with crashed := true }
        | none => some { p with writer := some (p.st.next, MapWrite.insert) }
    | Op.registered pos =>
        if p.writer = some (p.st.next, MapWrite.insert) then
          some { p with
            st := upgrade true p.st
            writer := none
            pass := produce p.st.next pos p.pass }
        else none
    | Op.read ws r =>
        if ws ∈ p.st.handlers ∧ ws ∉ senders p.st ∧ p.writer ≠ some (ws, MapWrite.delete) then
          match r with
          | some msg => some { p with st := readLoop ws (some msg) p.st }
          | none =>
              match p.writer with
              | some _ => some { p with crashed := true }
              | none => some { p with writer := some (ws, MapWrite.delete) }
        else none
    | Op.deleted ws =>
        if p.writer = some (ws, MapWrite.delete) then
          some { p with st := readLoop ws none p.st, writer := none }
        else none
    | Op.recv order =>
        if todo p = [] ∧ order.Perm (keys p.st.clients) then
          match p.st.broadcast with
          | [] => none
          | (_, msg) :: rest =>
              some { p with st := { p.st with broadcast := rest }, pass := some (msg, order) }
        else none
    | Op.iter fail =>
        match p.pass with
        | some (msg, k :: rest) =>
            match p.writer with
            | some _ => some { p with crashed := true }
            | none => some { p with st := iteration msg fail k p.st, pass := some (msg, rest) }
        | _ => none

/-- Execution of a sequence of steps. -/
def prun : Proc → List Op → Option Proc
  | p, [] => some p
  | p, op :: ops =>
      match pstep p op with
      | none => none
      | some p' => prun p' ops

/-- Messages that the handlers put on the channel during `ops`, in order. -/
def enqueued : List Op → List Message
  | [] => []
  | Op.read _ (some m) :: ops => m :: enqueued ops
  | _ :: ops => enqueued ops

/-- Number of receives of the relay loop in `ops`: the rounds it began. -/
def rounds : List Op → Nat
  | [] => 0
  | Op.recv _ :: ops => rounds ops + 1
  | _ :: ops => rounds ops

/-- Steps of one whole round of the relay loop with nothing in between: the
receive, then one iteration per key of `order`; the write fails on the
connections listed in `fails`. -/
def passOps (order fails : List Conn) : List Op :=
  Op.recv order :: order.map (fun k => Op.iter (decide (k ∈ fails)))

/-- Steps of the relay loop running alone through the rounds of `sched`, the
schedule that `handleMessages` takes. -/
def relayOps : List (List Conn × List Conn) → List Op
  | [] => []
  | (order, fails) :: sched => passOps order fails ++ relayOps sched

/-- Steps by which the interleaved process performs one serial event. -/
def opsOf : Event → List Op
  | Event.connect false => [Op.connect false]
  | Event.connect true => [Op.connect true, Op.registered none]
  | Event.read ws (some m) => [Op.read ws (some m)]
  | Event.read ws none => [Op.read ws none, Op.deleted ws]
  | Event.relay order fails => passOps order fails

/-- The transitions of `pstep`, case by case. -/
inductive Trans : Proc → Op → Proc → Prop where
  | crashInsert (p : Proc) (w : Conn × MapWrite) (hw : p.writer = some w) :
      Trans p (Op.connect true) { p with crashed := true }
  | crashDelete (p : Proc) (ws : Conn) (w : Conn × MapWrite) (hw : p.writer = some w) :
      Trans p (Op.read ws none) { p with crashed := true }
  | crashIter (p : Proc) (fail : Bool) (w : Conn × MapWrite) (hw : p.writer = some w) :
      Trans p (Op.iter fail) { p with crashed := true }
  | exit (p : Proc) : Trans p (Op.connect false) { p with st := upgrade false p.st }
  | beginInsert (p : Proc) (hw : p.writer = none) :
      Trans p (Op.connect true) { p with writer := some (p.st.next, MapWrite.insert) }
  | endInsert (p : Proc) (pos : Option Nat)
      (hw : p.writer = some (p.st.next, MapWrite.insert)) :
      Trans p (Op.registered pos)
        { p with st := upgrade true p.st, writer := none, pass := produce p.st.next pos p.pass }
  | send (p : Proc) (ws : Conn) (msg : Message) (hh : ws ∈ p.st.handlers)
      (hs : ws ∉ senders p.st) (hw : p.writer ≠ some (ws, MapWrite.delete)) :
      Trans p (Op.read ws (some msg)) { p with st := readLoop ws (some msg) p.st }
  | beginDelete (p : Proc) (ws : Conn) (hh : ws ∈ p.st.handlers)
      (hs : ws ∉ senders p.st) (hw : p.writer = none) :
      Trans p (Op.read ws none) { p with writer := some (ws, MapWrite.delete) }
  | endDelete (p : Proc) (ws : Conn) (hw : p.writer = some (ws, MapWrite.delete)) :
      Trans p (Op.deleted ws) { p with st := readLoop ws none p.st, writer := none }
  | receive (p : Proc) (order : List Conn) (x : Conn) (msg : Message)
      (rest : List (Conn × Message)) (ht : todo p = [])
      (hp : order.Perm (keys p.st.clients)) (hb : p.st.broadcast = (x, msg) :: rest) :
      Trans p (Op.recv order)
        { p with st := { p.st with broadcast := rest }, pass := some (msg, order) }
  | iterate (p : Proc) (fail : Bool) (msg : Message) (k : Conn) (rest : List Conn)
      (hp : p.pass = some (msg, k :: rest)) (hw : p.writer = none) :
      Trans p (Op.iter fail) { p with st := iteration msg fail k p.st, pass := some (msg, rest) }

/-- Invariant of the interleaved executions. -/
structure PInv (p : Proc) : Prop where
  inv : Inv p.st
  /-- A handler inside its registration holds the identity not yet issued. -/
  ins : ∀ ws, p.writer = some (ws, MapWrite.insert) → ws = p.st.next
  /-- A handler inside its delete has not returned. -/
  del : ∀ ws, p.writer = some (ws, MapWrite.delete) → ws ∈ p.st.handlers
  todo_lt : ∀ k ∈ todo p, k < p.st.next
  /-- No key is to be produced twice by a pass. -/
  todo_nodup : (todo p).Nodup

/-- Clients 0 and 1 connect one after the other, client 0 sends `hi`, and the
relay loop receives it and starts a pass in the order 1, 0. -/
def insidePassOps : List Op :=
  [Op.connect true, Op.registered none, Op.connect true, Op.registered none,
    Op.read 0 (some hi), Op.recv [1, 0]]

/-- Process after `insidePassOps`: the pass has produced no key yet. -/
def insidePass : Proc :=
  { st := { clients := [(0, true), (1, true)], broadcast := [], next := 2, handlers := [0, 1],
            written := [], closed := [], readErrs := [], writeErrs := [], exited := false },
    writer := none, pass := some (hi, [1, 0]), crashed := false }

/-- Process `insidePass` after a third client dialled: its handler is inside
`clients[2] = true`. -/
def insidePassRegistering : Proc := { insidePass with writer := some (2, MapWrite.insert) }

/-- Clients 0, 1 and 2 connect, client 0 sends `hi`, the relay loop starts a
pass in the order 1, 0, 2 and writes to 1; then the read of client 2 fails and
its handler returns, between two iterations of the pass. -/
def midPassOps : List Op :=
  [Op.connect true, Op.registered none, Op.connect true, Op.registered none,
    Op.connect true, Op.registered none, Op.read 0 (some hi), Op.recv [1, 0, 2],
    Op.iter false, Op.read 2 none, Op.deleted 2]

/-- Process after `midPassOps`. -/
def midPass : Proc :=
  { st := { clients := [(0, true), (1, true)], broadcast := [], next := 3, handlers := [0, 1],
            written := [(1, hi)], closed := [(2, Closer.handler)], readErrs := [2],
            writeErrs := [], exited := false },
    writer := none, pass := some (hi, [0, 2]), crashed := false }

/-- First message of the ordering scenario. -/
def m1 : Message := { Email := "a@x.com", Username := "alice", Message := "one" }

/-- Second message of the ordering scenario. -/
def m2 : Message := { Email := "b@x.com", Username := "bob", Message := "two" }

/-- Third message of the ordering scenario. -/
def m3 : Message := { Email := "c@x.com", Username := "carol", Message := "three" }

/-- Clients 0, 1 and 2 connect and send `m1`, `m2`, `m3` in this order. -/
def threeWaitingOps : List Op :=
  [Op.connect true, Op.registered none, Op.connect true, Op.registered none,
    Op.connect true, Op.registered none,
    Op.read 0 (some m1), Op.read 1 (some m2), Op.read 2 (some m3)]

/-- Process after `threeWaitingOps`: three messages wait on the channel. -/
def threeWaiting : Proc :=
  { st := { clients := [(0, true), (1, true), (2, true)],
            broadcast := [(0, m1), (1, m2), (2, m3)], next := 3, handlers := [0, 1, 2],
            written := [], closed := [], readErrs := [], writeErrs := [], exited := false },
    writer := none, pass := none, crashed := false }

/-- Process `threeWaiting` after three rounds of the relay loop in the orders
0 1 2, then 2 1 0, then 1 0 2. -/
def threeRelayed : Proc :=
  { st := { clients := [(0, true), (1, true), (2, true)], broadcast := [], next := 3,
            handlers := [0, 1, 2],
            written := [(0, m1), (1, m1), (2, m1), (2, m2), (1, m2), (0, m2),
              (1, m3), (0, m3), (2, m3)],
            closed := [], readErrs := [], writeErrs := [], exited := false },
    writer := none, pass := some (m3, []), crashed := false }

/-! ## Facts about the map operations -/

lemma mem_keys_mapDelete (m : ClientMap) (k c : Conn) :
    c ∈ keys (mapDelete m k) ↔ c ∈ keys m ∧ c ≠ k := by
  simp only [keys, mapDelete, List.mem_map, List.mem_filter, decide_eq_true_eq]
  constructor
  · rintro ⟨e, ⟨he, hk⟩, rfl⟩
    exact ⟨⟨e, he, rfl⟩, hk⟩
  · rintro ⟨⟨e, he, rfl⟩, hk⟩
    exact ⟨e, ⟨he, hk⟩, rfl⟩

lemma mapDelete_of_not_mem (m : ClientMap) (k : Conn) (h : k ∉ keys m) :
    mapDelete m k = m := by
  unfold mapDelete
  rw [List.filter_eq_self]
  intro e he
  have : e.1 ≠ k := fun hk => h (hk ▸ List.mem_map_of_mem Prod.fst he)
  simpa using this

lemma mapDelete_idem (m : ClientMap) (k : Conn) :
    mapDelete (mapDelete m k) k = mapDelete m k := by
  unfold mapDelete
  rw [List.filter_filter]
  simp

lemma nodup_keys_mapDelete (m : ClientMap) (k : Conn) (h : (keys m).Nodup) :
    (keys (mapDelete m k)).Nodup := by
  unfold keys mapDelete at *
  exact (List.filter_sublist m).map Prod.fst |>.nodup h

lemma mem_keys_mapSet (m : ClientMap) (k c : Conn) (v : Bool) :
    c ∈ keys (mapSet m k v) ↔ c = k ∨ c ∈ keys m := by
  induction m with
  | nil => simp [keys, mapSet]
  | cons e rest ih =>
      obtain ⟨k', v'⟩ := e
      simp only [keys] at ih ⊢
      by_cases h : k' = k
      · subst h
        simp [mapSet]
      · simp only [mapSet, h, if_false, List.map_cons, List.mem_cons, ih]
        tauto

lemma keys_mapSet_of_not_mem (m : ClientMap) (k : Conn) (v : Bool) (h : k ∉ keys m) :
    keys (mapSet m k v) = keys m ++ [k] := by
  induction m with
  | nil => simp [keys, mapSet]
  | cons e rest ih =>
      obtain ⟨k', v'⟩ := e
      simp only [keys, List.map_cons, List.mem_cons, not_or] at h ih ⊢
      have hk : k' ≠ k := fun hk => h.1 hk.symm
      simp [mapSet, hk, ih h.2]

lemma mapSet_of_mem (m : ClientMap) (k : Conn) (hk : k ∈ keys m)
    (hv : ∀ e ∈ m, e.2 = true) : mapSet m k true = m := by
  induction m with
  | nil => simp [keys] at hk
  | cons e rest ih =>
      obtain ⟨k', v'⟩ := e
      have hv' : v' = true := hv (k', v') (List.mem_cons_self _ _)
      subst hv'
      by_cases h : k' = k
      · subst h
        simp [mapSet]
      · have hk' : k ∈ keys rest := by
          simp only [keys, List.map_cons, List.mem_cons] at hk
          rcases hk with hk | hk
          · exact absurd hk.symm h
          · exact hk
        simp [mapSet, h, ih hk' (fun e he => hv e (List.mem_cons_of_mem _ he))]

lemma mem_mapSet_val (m : ClientMap) (k : Conn) (hv : ∀ e ∈ m, e.2 = true) :
    ∀ e ∈ mapSet m k true, e.2 = true := by
  induction m with
  | nil => simp [mapSet]
  | cons e rest ih =>
      obtain ⟨k', v'⟩ := e
      have hrest : ∀ e ∈ rest, e.2 = true := fun e he => hv e (List.mem_cons_of_mem _ he)
      by_cases h : k' = k
      · subst h
        intro e he
        simp only [mapSet, if_true, List.mem_cons] at he
        rcases he with rfl | he
        · rfl
        · exact hrest e he
      · intro e he
        simp only [mapSet, h, if_false, List.mem_cons] at he
        rcases he with rfl | he
        · exact hv _ (List.mem_cons_self _ _)
        · exact ih hrest e he

/-! ## One pass of the range loop in closed form -/

/-- Result of a pass over `order` when every listed key is present once:
each key outside `fails` gets the message, each key in `fails` is closed by
the relay loop and deleted. -/
lemma rangeClients_eq (msg : Message) (fails : List Conn) :
    ∀ (order : List Conn) (st : State), order.Nodup →
      (∀ c ∈ order, c ∈ keys st.clients) →
      rangeClients msg fails order st =
        { st with
          written := st.written ++
            (order.filter (fun c => decide (c ∉ fails))).map (fun c => (c, msg))
          writeErrs := st.writeErrs ++ order.filter (fun c => decide (c ∈ fails))
          closed := st.closed ++
            (order.filter (fun c => decide (c ∈ fails))).map (fun c => (c, Closer.relay))
          clients := st.clients.filter
            (fun e => decide (¬ (e.1 ∈ order ∧ e.1 ∈ fails))) } := by
  intro order
  induction order with
  | nil =>
      intro st _ _
      cases st
      simp [rangeClients]
  | cons c rest ih =>
      intro st hnd hsub
      have hc : c ∈ keys st.clients := hsub c (List.mem_cons_self _ _)
      have hnd' : rest.Nodup := (List.nodup_cons.mp hnd).2
      have hcr : c ∉ rest := (List.nodup_cons.mp hnd).1
      simp only [rangeClients, hc, if_true]
      by_cases hf : c ∈ fails
      · have hsub' : ∀ x ∈ rest, x ∈ keys (writeClient msg fails c st).clients := by
          intro x hx
          simp only [writeClient, hf, if_true]
          rw [mem_keys_mapDelete]
          exact ⟨hsub x (List.mem_cons_of_mem _ hx), fun h => hcr (h ▸ hx)⟩
        rw [ih _ hnd' hsub']
        cases st
        simp only [writeClient, hf, if_true, mapDelete, List.filter_filter, List.filter_cons,
          decide_True, decide_False, not_true, not_false_eq_true, List.map_cons, List.append_assoc,
          List.singleton_append, List.mem_cons, State.mk.injEq, and_true, true_and]
        constructor
        · apply List.filter_congr
          intro e _
          by_cases h1 : e.1 = c <;> simp [h1, hf]
        · simp
      · have hsub' : ∀ x ∈ rest, x ∈ keys (writeClient msg fails c st).clients := by
          intro x hx
          simp only [writeClient, hf, if_false]
          exact hsub x (List.mem_cons_of_mem _ hx)
        rw [ih _ hnd' hsub']
        cases st
        simp only [writeClient, hf, if_false, List.filter_cons,
          decide_True, decide_False, not_true, not_false_eq_true, List.map_cons, List.append_assoc,
          List.singleton_append, List.mem_cons, State.mk.injEq, and_true, true_and]
        constructor
        · apply List.filter_congr
          intro e _
          by_cases h1 : e.1 = c <;> simp [h1, hf]
        · simp

lemma handleMessages_single (order fails : List Conn) (st : State) :
    handleMessages [(order, fails)] st = relayRound order fails st := by
  simp only [handleMessages]
  cases relayRound order fails st <;> rfl

lemma filter_eq_singleton (k : Conn) : ∀ (l : List Conn), l.Nodup → k ∈ l →
    l.filter (fun c => decide (c = k)) = [k] := by
  intro l
  induction l with
  | nil => intro _ h; simp at h
  | cons a rest ih =>
      intro hnd hk
      have hnd' := List.nodup_cons.mp hnd
      by_cases ha : a = k
      · subst ha
        have : rest.filter (fun c => decide (c = a)) = [] := by
          rw [List.filter_eq_nil_iff]
          intro x hx
          have : x ≠ a := fun h => hnd'.1 (h ▸ hx)
          simpa using this
        simp [List.filter_cons, this]
      · have hk' : k ∈ rest := by
          rcases List.mem_cons.mp hk with h | h
          · exact absurd h.symm ha
          · exact h
        simp [List.filter_cons, ha, ih hnd'.2 hk']

/-- Among the writes of one pass over distinct keys, connection `c` has one
write when it is listed and none otherwise. -/
lemma writes_of_pass (m : Message) (c : Conn) : ∀ (l : List Conn), l.Nodup →
    (((l.map (fun x => (x, m))).filter (fun e => decide (e.1 = c))).map Prod.snd)
      = if c ∈ l then [m] else [] := by
  intro l
  induction l with
  | nil => intro _; simp
  | cons a rest ih =>
      intro hnd
      have hnd' := List.nodup_cons.mp hnd
      by_cases ha : a = c
      · subst ha
        have hr := ih hnd'.2
        simp only [hnd'.1, if_false] at hr
        simp [List.filter_cons, hr]
      · have hca : ¬ c = a := fun h => ha h.symm
        simp [List.filter_cons, ha, hca, ih hnd'.2]

lemma writtenTo_append (c : Conn) (st : State) (l : List (Conn × Message)) :
    writtenTo c { st with written := st.written ++ l } =
      writtenTo c st ++ ((l.filter (fun e => decide (e.1 = c))).map Prod.snd) := by
  simp [writtenTo, List.filter_append]

/-- A round in closed form: the head of the channel is received and the pass
of `rangeClients_eq` is made over the current keys. -/
lemma relayRound_eq (order fails : List Conn) (st : State) (s : Conn) (m : Message)
    (rest : List (Conn × Message)) (hb : st.broadcast = (s, m) :: rest)
    (hnd : (keys st.clients).Nodup) (hperm : order.Perm (keys st.clients)) :
    relayRound order fails st = some
      { st with
        broadcast := rest
        written := st.written ++
          (order.filter (fun c => decide (c ∉ fails))).map (fun c => (c, m))
        writeErrs := st.writeErrs ++ order.filter (fun c => decide (c ∈ fails))
        closed := st.closed ++
          (order.filter (fun c => decide (c ∈ fails))).map (fun c => (c, Closer.relay))
        clients := st.clients.filter
          (fun e => decide (¬ (e.1 ∈ order ∧ e.1 ∈ fails))) } := by
  have hnd' : order.Nodup := hperm.nodup_iff.mpr hnd
  have hsub : ∀ c ∈ order, c ∈ keys ({ st with broadcast := rest } : State).clients :=
    fun c hc => hperm.subset hc
  simp only [relayRound, hb, hperm, if_true]
  rw [rangeClients_eq m fails order _ hnd' hsub]

/-- C1. Fan-out completeness: in one round of `handleMessages` that receives
`m` and in which no write fails, the round's writes are exactly one `(c, m)`
per registered connection `c` (the value written is `m` itself, so its three
fields are those of `m`), `N` writes for `N` connections, nothing is written
to any other connection, nothing is closed and `clients` is unchanged. -/
theorem fanout_completeness (st : State) (order fails : List Conn) (s : Conn) (m : Message)
    (rest : List (Conn × Message)) (N : Nat)
    (hb : st.broadcast = (s, m) :: rest)
    (hnd : (keys st.clients).Nodup)
    (hN : (keys st.clients).length = N)
    (hperm : order.Perm (keys st.clients))
    (hok : ∀ c ∈ keys st.clients, c ∉ fails) :
    ∃ st', handleMessages [(order, fails)] st = some st' ∧
      st'.written = st.written ++ order.map (fun c => (c, m)) ∧
      st'.written.length = st.written.length + N ∧
      (∀ c ∈ keys st.clients, ∃ m', writtenTo c st' = writtenTo c st ++ [m'] ∧
        m'.Email = m.Email ∧ m'.Username = m.Username ∧ m'.Message = m.Message) ∧
      (∀ c, c ∉ keys st.clients → writtenTo c st' = writtenTo c st) ∧
      st'.clients = st.clients ∧ st'.closed = st.closed := by
  have hnd' : order.Nodup := hperm.nodup_iff.mpr hnd
  have hpass : order.filter (fun c => decide (c ∉ fails)) = order := by
    rw [List.filter_eq_self]
    intro c hc
    simpa using hok c (hperm.subset hc)
  have hfail : order.filter (fun c => decide (c ∈ fails)) = [] := by
    rw [List.filter_eq_nil_iff]
    intro c hc
    simpa using hok c (hperm.subset hc)
  have hcl : st.clients.filter (fun e => decide (¬ (e.1 ∈ order ∧ e.1 ∈ fails))) = st.clients := by
    rw [List.filter_eq_self]
    intro e he
    have : e.1 ∉ fails := hok e.1 (List.mem_map_of_mem Prod.fst he)
    simp [this]
  refine ⟨_, by rw [handleMessages_single, relayRound_eq order fails st s m rest hb hnd hperm], ?_⟩
  simp only [hpass, hfail, hcl, List.map_nil, List.append_nil]
  refine ⟨trivial, ?_, ?_, ?_, trivial, trivial⟩
  · simp [hperm.length_eq, hN]
  · intro c hc
    refine ⟨m, ?_, rfl, rfl, rfl⟩
    have hco : c ∈ order := hperm.mem_iff.mpr hc
    have := writtenTo_append c { st with broadcast := rest } (order.map (fun x => (x, m)))
    rw [writes_of_pass m c order hnd', if_pos hco] at this
    simpa [writtenTo] using this
  · intro c hc
    have hco : c ∉ order := fun h => hc (hperm.subset h)
    have := writtenTo_append c { st with broadcast := rest } (order.map (fun x => (x, m)))
    rw [writes_of_pass m c order hnd', if_neg hco] at this
    simpa [writtenTo] using this

/-- Witness of C1: two registered connections, the message `hi` on the
channel, iteration order `[1, 0]`, no failing write. -/
theorem fanout_completeness_witness :
    ∃ st', handleMessages [([1, 0], [])] twoClients = some st' ∧
      st'.written = twoClients.written ++ [1, 0].map (fun c => (c, hi)) ∧
      st'.written.length = twoClients.written.length + 2 ∧
      (∀ c ∈ keys twoClients.clients, ∃ m', writtenTo c st' = writtenTo c twoClients ++ [m'] ∧
        m'.Email = hi.Email ∧ m'.Username = hi.Username ∧ m'.Message = hi.Message) ∧
      (∀ c, c ∉ keys twoClients.clients → writtenTo c st' = writtenTo c twoClients) ∧
      st'.clients = twoClients.clients ∧ st'.closed = twoClients.closed :=
  fanout_completeness twoClients [1, 0] [] 0 hi [] 2 rfl (by decide) rfl (by decide) (by decide)

/-- C2. Failure isolation: in one round of `handleMessages` that receives `m`
and in which, among the `N` registered connections, the write fails on `k`
only, every other registered connection gets `m` exactly once (`N - 1` writes
in all), nothing is written to `k`, `k` is closed once by the relay loop, and
`clients` afterwards is the previous map with `k` deleted: `k` is gone and
every other connection is still registered. -/
theorem failure_isolation (st : State) (order fails : List Conn) (s : Conn) (m : Message)
    (rest : List (Conn × Message)) (N : Nat) (k : Conn)
    (hb : st.broadcast = (s, m) :: rest)
    (hnd : (keys st.clients).Nodup)
    (hN : (keys st.clients).length = N)
    (hperm : order.Perm (keys st.clients))
    (hk : k ∈ keys st.clients)
    (hfail : ∀ c ∈ keys st.clients, c ∈ fails ↔ c = k) :
    ∃ st', handleMessages [(order, fails)] st = some st' ∧
      (∀ c ∈ keys st.clients, c ≠ k → writtenTo c st' = writtenTo c st ++ [m]) ∧
      writtenTo k st' = writtenTo k st ∧
      st'.written.length = st.written.length + (N - 1) ∧
      st'.closed = st.closed ++ [(k, Closer.relay)] ∧
      st'.clients = mapDelete st.clients k ∧
      (∀ c, c ∈ keys st'.clients ↔ c ∈ keys st.clients ∧ c ≠ k) := by
  have hnd' : order.Nodup := hperm.nodup_iff.mpr hnd
  have hko : k ∈ order := hperm.mem_iff.mpr hk
  have hkf : k ∈ fails := (hfail k hk).mpr rfl
  have hfailing : order.filter (fun c => decide (c ∈ fails)) = [k] := by
    rw [← filter_eq_singleton k order hnd' hko]
    apply List.filter_congr
    intro c hc
    simp [hfail c (hperm.subset hc)]
  have hpassing : order.filter (fun c => decide (c ∉ fails)) = order.erase k := by
    rw [hnd'.erase_eq_filter]
    apply List.filter_congr
    intro c hc
    have := hfail c (hperm.subset hc)
    by_cases hck : c = k
    · simp [hck, hkf]
    · simp [hck, this]
  have hndp : (order.erase k).Nodup := hnd'.erase k
  have hcl : st.clients.filter (fun e => decide (¬ (e.1 ∈ order ∧ e.1 ∈ fails)))
      = mapDelete st.clients k := by
    unfold mapDelete
    apply List.filter_congr
    intro e he
    have hek : e.1 ∈ keys st.clients := List.mem_map_of_mem Prod.fst he
    have := hfail e.1 hek
    have heo : e.1 ∈ order := hperm.mem_iff.mpr hek
    by_cases hck : e.1 = k
    · simp [hck, hkf, hko]
    · simp [hck, this, heo]
  refine ⟨_, by rw [handleMessages_single, relayRound_eq order fails st s m rest hb hnd hperm], ?_⟩
  simp only [hpassing, hfailing, hcl, List.map_cons, List.map_nil]
  refine ⟨?_, ?_, ?_, trivial, trivial, fun c => mem_keys_mapDelete st.clients k c⟩
  · intro c hc hck
    have hco : c ∈ order.erase k := (List.mem_erase_of_ne hck).mpr (hperm.mem_iff.mpr hc)
    have := writtenTo_append c { st with broadcast := rest } ((order.erase k).map (fun x => (x, m)))
    rw [writes_of_pass m c _ hndp, if_pos hco] at this
    simpa [writtenTo] using this
  · have hco : k ∉ order.erase k := hnd'.not_mem_erase
    have := writtenTo_append k { st with broadcast := rest } ((order.erase k).map (fun x => (x, m)))
    rw [writes_of_pass m k _ hndp, if_neg hco] at this
    simpa [writtenTo] using this
  · simp [List.length_erase_of_mem hko, hperm.length_eq, hN]

/-- Witness of C2: connections 0 and 1 registered, the write to 1 fails. -/
theorem failure_isolation_witness :
    ∃ st', handleMessages [([1, 0], [1])] twoClients = some st' ∧
      (∀ c ∈ keys twoClients.clients, c ≠ 1 → writtenTo c st' = writtenTo c twoClients ++ [hi]) ∧
      writtenTo 1 st' = writtenTo 1 twoClients ∧
      st'.written.length = twoClients.written.length + (2 - 1) ∧
      st'.closed = twoClients.closed ++ [(1, Closer.relay)] ∧
      st'.clients = mapDelete twoClients.clients 1 ∧
      (∀ c, c ∈ keys st'.clients ↔ c ∈ keys twoClients.clients ∧ c ≠ 1) :=
  failure_isolation twoClients [1, 0] [1] 0 hi [] 2 1 rfl (by decide) rfl (by decide)
    (by decide) (by decide)

/-- C5. Unregister idempotence: `delete(clients, c)` is a total function (it
has no error result); deleting `c` twice gives the map that deleting it once
gives, for every map and every `c`; and deleting a `c` that is not a key
returns the map unchanged. -/
theorem unregister_idempotent (m : ClientMap) (c : Conn) :
    mapDelete (mapDelete m c) c = mapDelete m c ∧
      c ∉ keys (mapDelete m c) ∧
      (c ∉ keys m → mapDelete m c = m) :=
  ⟨mapDelete_idem m c, fun h => ((mem_keys_mapDelete m c c).mp h).2 rfl,
    mapDelete_of_not_mem m c⟩

/-- Witness of C5: connection 7 is absent from the map of `twoClients`. -/
theorem unregister_idempotent_witness :
    7 ∉ keys twoClients.clients ∧ mapDelete twoClients.clients 7 = twoClients.clients :=
  ⟨by decide, (unregister_idempotent twoClients.clients 7).2.2 (by decide)⟩

/-! ## The invariant -/

lemma inv_init : Inv init := by
  constructor <;> simp [init, keys, closeCountBy, senders]

lemma inv_upgrade (st : State) (ok : Bool) (h : Inv st) : Inv (upgrade ok st) := by
  cases ok with
  | false => exact ⟨h.1, h.2, h.3, h.4, h.5, h.6, h.7, h.8, h.9, h.10, h.11, h.12, h.13, h.14⟩
  | true =>
      have hfresh : st.next ∉ keys st.clients := fun hc => lt_irrefl _ (h.keys_lt _ hc)
      simp only [upgrade, if_true]
      constructor
      · show (keys (mapSet st.clients st.next true)).Nodup
        rw [keys_mapSet_of_not_mem _ _ _ hfresh]
        exact List.Nodup.append h.nodup (List.nodup_singleton _) (by simpa using hfresh)
      · exact mem_mapSet_val st.clients st.next h.vals
      · intro c hc
        have hc' : c ∈ keys (mapSet st.clients st.next true) := hc
        rw [mem_keys_mapSet] at hc'
        rcases hc' with rfl | hc'
        · exact Nat.lt_succ_self _
        · exact Nat.lt_succ_of_lt (h.keys_lt c hc')
      · intro c hc
        have hc' : c ∈ st.handlers ++ [st.next] := hc
        rcases List.mem_append.mp hc' with hc' | hc'
        · exact Nat.lt_succ_of_lt (h.handlers_lt c hc')
        · rw [List.mem_singleton.mp hc']
          exact Nat.lt_succ_self _
      · intro e he
        exact Nat.lt_succ_of_lt (h.written_lt e he)
      · intro e he
        have := h.closed_gone e he
        refine ⟨Nat.lt_succ_of_lt this.1, ?_⟩
        show e.1 ∉ keys (mapSet st.clients st.next true)
        rw [mem_keys_mapSet]
        rintro (h1 | h1)
        · exact absurd this.1 (by rw [h1]; exact lt_irrefl _)
        · exact this.2 h1
      · intro c hc hk
        have hk' : c ∉ keys (mapSet st.clients st.next true) := hk
        rw [mem_keys_mapSet] at hk'
        have hne : c ≠ st.next := fun h1 => hk' (Or.inl h1)
        have hlt : c < st.next := lt_of_le_of_ne (Nat.lt_succ_iff.mp hc) hne
        exact h.gone_failed c hlt (fun h1 => hk' (Or.inr h1))
      · exact h.readErrs_nodup
      · intro c hc
        have := h.readErrs_done c hc
        refine ⟨Nat.lt_succ_of_lt this.1, ?_⟩
        show c ∉ st.handlers ++ [st.next]
        rw [List.mem_append, List.mem_singleton]
        rintro (h1 | h1)
        · exact this.2 h1
        · exact absurd this.1 (by rw [h1]; exact lt_irrefl _)
      · exact h.writeErrs_nodup
      · intro c hc
        have := h.writeErrs_gone c hc
        refine ⟨Nat.lt_succ_of_lt this.1, ?_⟩
        show c ∉ keys (mapSet st.clients st.next true)
        rw [mem_keys_mapSet]
        rintro (h1 | h1)
        · exact absurd this.1 (by rw [h1]; exact lt_irrefl _)
        · exact this.2 h1
      · exact h.closed_handler
      · exact h.closed_relay
      · intro c hc
        exact Nat.lt_succ_of_lt (h.senders_lt c hc)

lemma inv_readLoop (st : State) (ws : Conn) (r : Option Message) (h : Inv st)
    (hws : ws ∈ st.handlers) : Inv (readLoop ws r st) := by
  cases r with
  | some msg =>
      refine ⟨h.1, h.2, h.3, h.4, h.5, h.6, h.7, h.8, h.9, h.10, h.11, h.12, h.13, ?_⟩
      intro c hc
      simp only [readLoop, senders, List.map_append, List.mem_append, List.map_cons,
        List.map_nil, List.mem_singleton] at hc
      rcases hc with hc | hc
      · exact h.senders_lt c hc
      · rw [hc]
        exact h.handlers_lt ws hws
  | none =>
      have hlt : ws < st.next := h.handlers_lt ws hws
      have hnr : ws ∉ st.readErrs := fun hc => (h.readErrs_done ws hc).2 hws
      simp only [readLoop]
      constructor
      · exact nodup_keys_mapDelete _ _ h.nodup
      · intro e he
        exact h.vals e (List.mem_filter.mp he).1
      · intro c hc
        exact h.keys_lt c ((mem_keys_mapDelete _ _ _).mp hc).1
      · intro c hc
        exact h.handlers_lt c (List.mem_filter.mp hc).1
      · exact h.written_lt
      · intro e he
        have he' : e ∈ st.closed ++ [(ws, Closer.handler)] := he
        show e.1 < st.next ∧ e.1 ∉ keys (mapDelete st.clients ws)
        rw [mem_keys_mapDelete]
        rcases List.mem_append.mp he' with h1 | h1
        · exact ⟨(h.closed_gone e h1).1, fun h2 => (h.closed_gone e h1).2 h2.1⟩
        · rw [List.mem_singleton.mp h1]
          exact ⟨hlt, fun h2 => h2.2 rfl⟩
      · intro c hc hk
        have hk' : c ∉ keys (mapDelete st.clients ws) := hk
        rw [mem_keys_mapDelete] at hk'
        show c ∈ st.readErrs ++ [ws] ∨ c ∈ st.writeErrs
        by_cases hcw : c = ws
        · exact Or.inl (List.mem_append.mpr (Or.inr (List.mem_singleton.mpr hcw)))
        · rcases h.gone_failed c hc (fun h1 => hk' ⟨h1, hcw⟩) with h1 | h1
          · exact Or.inl (List.mem_append.mpr (Or.inl h1))
          · exact Or.inr h1
      · exact List.Nodup.append h.readErrs_nodup (List.nodup_singleton _) (by simpa using hnr)
      · intro c hc
        have hc' : c ∈ st.readErrs ++ [ws] := hc
        show c < st.next ∧ c ∉ st.handlers.filter (fun c => decide (c ≠ ws))
        rcases List.mem_append.mp hc' with h1 | h1
        · exact ⟨(h.readErrs_done c h1).1, fun h2 => (h.readErrs_done c h1).2 (List.mem_filter.mp h2).1⟩
        · rw [List.mem_singleton.mp h1]
          exact ⟨hlt, fun h2 => by simpa using (List.mem_filter.mp h2).2⟩
      · exact h.writeErrs_nodup
      · intro c hc
        refine ⟨(h.writeErrs_gone c hc).1, ?_⟩
        show c ∉ keys (mapDelete st.clients ws)
        rw [mem_keys_mapDelete]
        exact fun h2 => (h.writeErrs_gone c hc).2 h2.1
      · intro c
        have := h.closed_handler c
        simp only [closeCountBy] at this ⊢
        rw [List.filter_append, List.length_append, List.count_append, this]
        by_cases hcw : ws = c
        · subst hcw
          simp
        · have hcw' : ¬ c = ws := fun h1 => hcw h1.symm
          simp [List.filter_cons, List.count_cons, hcw, hcw']
      · intro c
        have := h.closed_relay c
        simp only [closeCountBy] at this ⊢
        rw [List.filter_append, List.length_append, this]
        simp [List.filter_cons]
      · exact h.senders_lt

lemma relayRound_some (order fails : List Conn) (st st' : State)
    (hr : relayRound order fails st = some st') :
    ∃ s m rest, st.broadcast = (s, m) :: rest ∧ order.Perm (keys st.clients) := by
  cases hb : st.broadcast with
  | nil => simp [relayRound, hb] at hr
  | cons e rest =>
      obtain ⟨s, m⟩ := e
      by_cases hperm : order.Perm (keys st.clients)
      · exact ⟨s, m, rest, rfl, hperm⟩
      · simp [relayRound, hb, hperm] at hr

lemma closeCount_split (c : Conn) (st : State) :
    closeCount c st = closeCountBy Closer.handler c st + closeCountBy Closer.relay c st := by
  unfold closeCount closeCountBy
  induction st.closed with
  | nil => simp
  | cons e rest ih =>
      obtain ⟨x, who⟩ := e
      by_cases hx : x = c
      · cases who <;> simp [List.filter_cons, hx, ih] <;> omega
      · simp [List.filter_cons, hx, ih]

lemma count_of_nodup (c : Conn) (l : List Conn) (h : l.Nodup) :
    l.count c = if c ∈ l then 1 else 0 := by
  by_cases hc : c ∈ l
  · rw [if_pos hc, List.count_eq_one_of_mem h hc]
  · rw [if_neg hc, List.count_eq_zero_of_not_mem hc]

/-- C7 on the code: when `Upgrade` fails, `handleConnections` calls
`log.Fatal`, so the process has exited and no goroutine takes a further step;
`clients` and `broadcast` are as before. -/
theorem upgrade_failure_exits :
    ∃ st', step twoClients (Event.connect false) = some st' ∧
      st'.exited = true ∧
      st'.clients = twoClients.clients ∧ st'.broadcast = twoClients.broadcast ∧
      (∀ ev, step st' ev = none) :=
  ⟨{ twoClients with exited := true }, rfl, rfl, rfl, rfl, fun _ => rfl⟩

/-! ## The interleaved executions -/

lemma pstep_running (p p' : Proc) (op : Op) (h : pstep p op = some p') :
    p.st.exited = false ∧ p.crashed = false := by
  unfold pstep at h
  by_cases he : p.st.exited = true ∨ p.crashed = true
  · rw [if_pos he] at h
    exact Option.noConfusion h
  · rw [not_or] at he
    exact ⟨by simpa using he.1, by simpa using he.2⟩

lemma pstep_trans (p p' : Proc) (op : Op) (h : pstep p op = some p') : Trans p op p' := by
  have hrun := pstep_running p p' op h
  unfold pstep at h
  have he : ¬ (p.st.exited = true ∨ p.crashed = true) := by
    rw [hrun.1, hrun.2]
    simp
  rw [if_neg he] at h
  cases op with
  | connect ok =>
      cases ok with
      | false =>
          simp only at h
          rw [← Option.some.inj h]
          exact Trans.exit p
      | true =>
          simp only at h
          cases hw : p.writer with
          | none =>
              rw [hw] at h
              simp only at h
              rw [← Option.some.inj h]
              exact Trans.beginInsert p hw
          | some w =>
              rw [hw] at h
              simp only at h
              rw [← Option.some.inj h]
              have t := Trans.crashInsert p w hw
              rw [hw] at t
              exact t
  | registered pos =>
      simp only at h
      by_cases hw : p.writer = some (p.st.next, MapWrite.insert)
      · rw [if_pos hw] at h
        rw [← Option.some.inj h]
        exact Trans.endInsert p pos hw
      · rw [if_neg hw] at h
        exact Option.noConfusion h
  | read ws r =>
      simp only at h
      by_cases hen : ws ∈ p.st.handlers ∧ ws ∉ senders p.st ∧
          p.writer ≠ some (ws, MapWrite.delete)
      · rw [if_pos hen] at h
        cases r with
        | some msg =>
            simp only at h
            rw [← Option.some.inj h]
            exact Trans.send p ws msg hen.1 hen.2.1 hen.2.2
        | none =>
            simp only at h
            cases hw : p.writer with
            | none =>
                rw [hw] at h
                simp only at h
                rw [← Option.some.inj h]
                exact Trans.beginDelete p ws hen.1 hen.2.1 hw
            | some w =>
                rw [hw] at h
                simp only at h
                rw [← Option.some.inj h]
                have t := Trans.crashDelete p ws w hw
                rw [hw] at t
                exact t
      · rw [if_neg hen] at h
        exact Option.noConfusion h
  | deleted ws =>
      simp only at h
      by_cases hw : p.writer = some (ws, MapWrite.delete)
      · rw [if_pos hw] at h
        rw [← Option.some.inj h]
        exact Trans.endDelete p ws hw
      · rw [if_neg hw] at h
        exact Option.noConfusion h
  | recv order =>
      simp only at h
      by_cases hen : todo p = [] ∧ order.Perm (keys p.st.clients)
      · rw [if_pos hen] at h
        cases hb : p.st.broadcast with
        | nil =>
            rw [hb] at h
            exact Option.noConfusion h
        | cons e rest =>
            obtain ⟨x, msg⟩ := e
            rw [hb] at h
            simp only at h
            rw [← Option.some.inj h]
            exact Trans.receive p order x msg rest hen.1 hen.2 hb
      · rw [if_neg hen] at h
        exact Option.noConfusion h
  | iter fail =>
      simp only at h
      cases hp : p.pass with
      | none =>
          rw [hp] at h
          exact Option.noConfusion h
      | some mr =>
          obtain ⟨msg, todo⟩ := mr
          cases todo with
          | nil =>
              rw [hp] at h
              exact Option.noConfusion h
          | cons k rest =>
              rw [hp] at h
              simp only at h
              cases hw : p.writer with
              | none =>
                  rw [hw] at h
                  simp only at h
                  rw [← Option.some.inj h]
                  have t := Trans.iterate p fail msg k rest hp hw
                  rw [hw] at t
                  exact t
              | some w =>
                  rw [hw] at h
                  simp only at h
                  rw [← Option.some.inj h]
                  have t := Trans.crashIter p fail w hw
                  rw [hw, hp] at t
                  exact t

lemma iteration_eq (msg : Message) (fail : Bool) (k : Conn) (st : State) :
    iteration msg fail k st =
      if k ∈ keys st.clients then
        (if fail = true then
          { st with
            writeErrs := st.writeErrs ++ [k]
            closed := st.closed ++ [(k, Closer.relay)]
            clients := mapDelete st.clients k }
        else { st with written := st.written ++ [(k, msg)] })
      else st := by
  unfold iteration
  by_cases hk : k ∈ keys st.clients
  · cases fail <;> simp [rangeClients, writeClient, hk]
  · simp [rangeClients, hk]

lemma iteration_skip (msg : Message) (fail : Bool) (k : Conn) (st : State)
    (hk : k ∉ keys st.clients) : iteration msg fail k st = st := by
  rw [iteration_eq, if_neg hk]

lemma iteration_write (msg : Message) (k : Conn) (st : State) (hk : k ∈ keys st.clients) :
    iteration msg false k st = { st with written := st.written ++ [(k, msg)] } := by
  rw [iteration_eq, if_pos hk]
  simp

lemma iteration_fail (msg : Message) (k : Conn) (st : State) (hk : k ∈ keys st.clients) :
    iteration msg true k st =
      { st with
        writeErrs := st.writeErrs ++ [k]
        closed := st.closed ++ [(k, Closer.relay)]
        clients := mapDelete st.clients k } := by
  rw [iteration_eq, if_pos hk]
  simp

/-- What one iteration leaves alone and what it changes. -/
lemma iteration_frame (msg : Message) (fail : Bool) (k : Conn) (st : State) :
    (iteration msg fail k st).next = st.next ∧
      (iteration msg fail k st).handlers = st.handlers ∧
      (iteration msg fail k st).broadcast = st.broadcast ∧
      (iteration msg fail k st).exited = st.exited ∧
      (iteration msg fail k st).readErrs = st.readErrs ∧
      (∀ c, c ∈ keys (iteration msg fail k st).clients ↔
        c ∈ keys st.clients ∧ ¬ (c = k ∧ fail = true)) ∧
      (∀ c, c ≠ k → writtenTo c (iteration msg fail k st) = writtenTo c st) ∧
      (writtenTo k (iteration msg fail k st) =
        writtenTo k st ++ (if k ∈ keys st.clients ∧ fail = false then [msg] else [])) := by
  by_cases hk : k ∈ keys st.clients
  · cases fail with
    | false =>
        rw [iteration_write msg k st hk]
        refine ⟨rfl, rfl, rfl, rfl, rfl, ?_, ?_, ?_⟩
        · intro c
          simp
        · intro c hc
          have hkc : ¬ k = c := fun h => hc h.symm
          simp [writtenTo, List.filter_append, List.filter_cons, hkc]
        · simp [writtenTo, List.filter_append, List.filter_cons, hk]
    | true =>
        rw [iteration_fail msg k st hk]
        refine ⟨rfl, rfl, rfl, rfl, rfl, ?_, ?_, ?_⟩
        · intro c
          simp only [mem_keys_mapDelete, and_true]
        · intro c _
          rfl
        · simp [writtenTo]
  · rw [iteration_skip msg fail k st hk]
    refine ⟨rfl, rfl, rfl, rfl, rfl, ?_, ?_, ?_⟩
    · intro c
      constructor
      · intro hc
        exact ⟨hc, fun h => hk (h.1 ▸ hc)⟩
      · exact fun h => h.1
    · intro c _
      rfl
    · simp [hk]

lemma inv_iteration (msg : Message) (fail : Bool) (k : Conn) (st : State) (h : Inv st) :
    Inv (iteration msg fail k st) := by
  by_cases hk : k ∈ keys st.clients
  swap
  · rw [iteration_skip msg fail k st hk]
    exact h
  have hlt : k < st.next := h.keys_lt k hk
  cases fail with
  | false =>
      rw [iteration_write msg k st hk]
      refine ⟨h.1, h.2, h.3, h.4, ?_, h.6, h.7, h.8, h.9, h.10, h.11, h.12, h.13, h.14⟩
      intro e he
      have he' : e ∈ st.written ++ [(k, msg)] := he
      rcases List.mem_append.mp he' with h1 | h1
      · exact h.written_lt e h1
      · rw [List.mem_singleton.mp h1]
        exact hlt
  | true =>
      rw [iteration_fail msg k st hk]
      have hnw : k ∉ st.writeErrs := fun hc => (h.writeErrs_gone k hc).2 hk
      constructor
      · exact nodup_keys_mapDelete _ _ h.nodup
      · intro e he
        exact h.vals e (List.mem_filter.mp he).1
      · intro c hc
        exact h.keys_lt c ((mem_keys_mapDelete _ _ _).mp hc).1
      · exact h.handlers_lt
      · exact h.written_lt
      · intro e he
        have he' : e ∈ st.closed ++ [(k, Closer.relay)] := he
        show e.1 < st.next ∧ e.1 ∉ keys (mapDelete st.clients k)
        rw [mem_keys_mapDelete]
        rcases List.mem_append.mp he' with h1 | h1
        · exact ⟨(h.closed_gone e h1).1, fun h2 => (h.closed_gone e h1).2 h2.1⟩
        · rw [List.mem_singleton.mp h1]
          exact ⟨hlt, fun h2 => h2.2 rfl⟩
      · intro c hc hn
        have hn' : c ∉ keys (mapDelete st.clients k) := hn
        rw [mem_keys_mapDelete] at hn'
        show c ∈ st.readErrs ∨ c ∈ st.writeErrs ++ [k]
        by_cases hck : c = k
        · exact Or.inr (List.mem_append.mpr (Or.inr (List.mem_singleton.mpr hck)))
        · rcases h.gone_failed c hc (fun h1 => hn' ⟨h1, hck⟩) with h1 | h1
          · exact Or.inl h1
          · exact Or.inr (List.mem_append.mpr (Or.inl h1))
      · exact h.readErrs_nodup
      · exact h.readErrs_done
      · exact List.Nodup.append h.writeErrs_nodup (List.nodup_singleton _) (by simpa using hnw)
      · intro c hc
        have hc' : c ∈ st.writeErrs ++ [k] := hc
        show c < st.next ∧ c ∉ keys (mapDelete st.clients k)
        rw [mem_keys_mapDelete]
        rcases List.mem_append.mp hc' with h1 | h1
        · exact ⟨(h.writeErrs_gone c h1).1, fun h2 => (h.writeErrs_gone c h1).2 h2.1⟩
        · rw [List.mem_singleton.mp h1]
          exact ⟨hlt, fun h2 => h2.2 rfl⟩
      · intro c
        have := h.closed_handler c
        simp only [closeCountBy] at this ⊢
        rw [List.filter_append, List.length_append, this]
        simp [List.filter_cons]
      · intro c
        have := h.closed_relay c
        simp only [closeCountBy] at this ⊢
        rw [List.filter_append, List.length_append, List.count_append, this]
        by_cases hcw : k = c
        · subst hcw
          simp
        · have hcw' : ¬ c = k := fun h1 => hcw h1.symm
          simp [List.filter_cons, List.count_cons, hcw, hcw']
      · exact h.senders_lt

lemma inv_receive (st : State) (x : Conn) (msg : Message) (rest : List (Conn × Message))
    (hb : st.broadcast = (x, msg) :: rest) (h : Inv st) :
    Inv { st with broadcast := rest } := by
  refine ⟨h.1, h.2, h.3, h.4, h.5, h.6, h.7, h.8, h.9, h.10, h.11, h.12, h.13, ?_⟩
  intro c hc
  apply h.senders_lt c
  simp only [senders] at hc
  simp only [senders, hb, List.map_cons, List.mem_cons]
  exact Or.inr hc

lemma produce_spec (ws : Conn) (pos : Option Nat) (pass : Option (Message × List Conn)) :
    produce ws pos pass = pass ∨
      ∃ m rest i, pass = some (m, rest) ∧
        produce ws pos pass = some (m, rest.take i ++ ws :: rest.drop i) := by
  cases pos with
  | none => exact Or.inl (by cases pass <;> rfl)
  | some i =>
      cases pass with
      | none => exact Or.inl rfl
      | some mr =>
          obtain ⟨m, rest⟩ := mr
          cases rest with
          | nil => exact Or.inl rfl
          | cons k rest => exact Or.inr ⟨m, k :: rest, i, rfl, rfl⟩

lemma insert_perm (ws : Conn) (i : Nat) (l : List Conn) :
    (l.take i ++ ws :: l.drop i).Perm (ws :: l) := by
  have h := @List.perm_middle _ ws (l.take i) (l.drop i)
  rwa [List.take_append_drop] at h

/-- Keys to come after a registration completed: the old ones, and the new key
if the pass is to produce it. -/
lemma todo_produce (p : Proc) (ws : Conn) (pos : Option Nat) (st : State)
    (w : Option (Conn × MapWrite)) :
    todo { p with st := st, writer := w, pass := produce ws pos p.pass } = todo p ∨
      (todo { p with st := st, writer := w, pass := produce ws pos p.pass }).Perm
        (ws :: todo p) := by
  rcases produce_spec ws pos p.pass with h | ⟨m, rest, i, hp, h⟩
  · left
    simp only [todo, h]
  · right
    rw [hp] at h
    simp only [todo, hp, h]
    exact insert_perm ws i rest

lemma pinv_init : PInv pinit := by
  refine ⟨inv_init, ?_, ?_, ?_, ?_⟩ <;> simp [pinit, todo]

lemma pinv_trans (p p' : Proc) (op : Op) (h : PInv p) (t : Trans p op p') : PInv p' := by
  cases t with
  | crashInsert w hw => exact ⟨h.inv, h.ins, h.del, h.todo_lt, h.todo_nodup⟩
  | crashDelete ws w hw => exact ⟨h.inv, h.ins, h.del, h.todo_lt, h.todo_nodup⟩
  | crashIter fail w hw => exact ⟨h.inv, h.ins, h.del, h.todo_lt, h.todo_nodup⟩
  | exit => exact ⟨inv_upgrade p.st false h.inv, h.ins, h.del, h.todo_lt, h.todo_nodup⟩
  | beginInsert hw =>
      refine ⟨h.inv, ?_, ?_, h.todo_lt, h.todo_nodup⟩
      · intro ws hws
        exact ((Prod.mk.inj (Option.some.inj hws)).1).symm
      · intro ws hws
        exact MapWrite.noConfusion (Prod.mk.inj (Option.some.inj hws)).2
  | endInsert pos hw =>
      have hnext : (upgrade true p.st).next = p.st.next + 1 := by simp [upgrade]
      refine ⟨inv_upgrade p.st true h.inv, ?_, ?_, ?_, ?_⟩
      · intro ws hws
        exact Option.noConfusion hws
      · intro ws hws
        exact Option.noConfusion hws
      · intro k hk
        show k < (upgrade true p.st).next
        rw [hnext]
        rcases todo_produce p p.st.next pos (upgrade true p.st) none with h1 | h1
        · rw [h1] at hk
          exact Nat.lt_succ_of_lt (h.todo_lt k hk)
        · rcases List.mem_cons.mp (h1.subset hk) with h2 | h2
          · rw [h2]
            exact Nat.lt_succ_self _
          · exact Nat.lt_succ_of_lt (h.todo_lt k h2)
      · rcases todo_produce p p.st.next pos (upgrade true p.st) none with h1 | h1
        · rw [h1]
          exact h.todo_nodup
        · rw [h1.nodup_iff, List.nodup_cons]
          exact ⟨fun hc => lt_irrefl _ (h.todo_lt _ hc), h.todo_nodup⟩
  | send ws msg hh hs hw =>
      exact ⟨inv_readLoop p.st ws (some msg) h.inv hh, h.ins, h.del, h.todo_lt, h.todo_nodup⟩
  | beginDelete ws hh hs hw =>
      refine ⟨h.inv, ?_, ?_, h.todo_lt, h.todo_nodup⟩
      · intro c hc
        exact MapWrite.noConfusion (Prod.mk.inj (Option.some.inj hc)).2
      · intro c hc
        rw [← (Prod.mk.inj (Option.some.inj hc)).1]
        exact hh
  | endDelete ws hw =>
      refine ⟨inv_readLoop p.st ws none h.inv (h.del ws hw), ?_, ?_, h.todo_lt, h.todo_nodup⟩
      · intro c hc
        exact Option.noConfusion hc
      · intro c hc
        exact Option.noConfusion hc
  | receive order x msg rest ht hp hb =>
      refine ⟨inv_receive p.st x msg rest hb h.inv, h.ins, h.del, ?_, ?_⟩
      · intro k hk
        exact h.inv.keys_lt k (hp.subset hk)
      · exact hp.nodup_iff.mpr h.inv.nodup
  | iterate fail msg k rest hp hw =>
      have hf := iteration_frame msg fail k p.st
      have htodo : todo p = k :: rest := by simp only [todo, hp]
      refine ⟨inv_iteration msg fail k p.st h.inv, ?_, ?_, ?_, ?_⟩
      · intro ws hws
        show ws = (iteration msg fail k p.st).next
        rw [hf.1]
        exact h.ins ws hws
      · intro ws hws
        show ws ∈ (iteration msg fail k p.st).handlers
        rw [hf.2.1]
        exact h.del ws hws
      · intro c hc
        show c < (iteration msg fail k p.st).next
        rw [hf.1]
        apply h.todo_lt c
        rw [htodo]
        exact List.mem_cons_of_mem _ hc
      · have := h.todo_nodup
        rw [htodo] at this
        exact (List.nodup_cons.mp this).2

lemma pinv_prun : ∀ (ops : List Op) (p p' : Proc), PInv p → prun p ops = some p' → PInv p' := by
  intro ops
  induction ops with
  | nil =>
      intro p p' h hr
      rw [← Option.some.inj hr]
      exact h
  | cons op ops ih =>
      intro p p' h hr
      simp only [prun] at hr
      cases hs : pstep p op with
      | none => simp [hs] at hr
      | some p1 =>
          simp only [hs] at hr
          exact ih p1 p' (pinv_trans p p1 op h (pstep_trans p p1 op hs)) hr

/-- A connection that was registered and is no longer a key is never a key
again and gets no further write, whatever the goroutines do, also inside a
pass that still lists it. -/
lemma pgone_trans (p p' : Proc) (op : Op) (c : Conn) (t : Trans p op p')
    (hlt : c < p.st.next) (hk : c ∉ keys p.st.clients) :
    c < p'.st.next ∧ c ∉ keys p'.st.clients ∧ writtenTo c p'.st = writtenTo c p.st := by
  cases t with
  | crashInsert w hw => exact ⟨hlt, hk, rfl⟩
  | crashDelete ws w hw => exact ⟨hlt, hk, rfl⟩
  | crashIter fail w hw => exact ⟨hlt, hk, rfl⟩
  | exit => exact ⟨hlt, hk, rfl⟩
  | beginInsert hw => exact ⟨hlt, hk, rfl⟩
  | endInsert pos hw =>
      refine ⟨?_, ?_, rfl⟩
      · show c < (upgrade true p.st).next
        simp only [upgrade, if_true]
        exact Nat.lt_succ_of_lt hlt
      · show c ∉ keys (upgrade true p.st).clients
        simp only [upgrade, if_true]
        rw [mem_keys_mapSet]
        rintro (h1 | h1)
        · exact Nat.ne_of_lt hlt h1
        · exact hk h1
  | send ws msg hh hs hw => exact ⟨hlt, hk, rfl⟩
  | beginDelete ws hh hs hw => exact ⟨hlt, hk, rfl⟩
  | endDelete ws hw =>
      refine ⟨hlt, ?_, rfl⟩
      show c ∉ keys (mapDelete p.st.clients ws)
      rw [mem_keys_mapDelete]
      exact fun h1 => hk h1.1
  | receive order x msg rest ht hp hb => exact ⟨hlt, hk, rfl⟩
  | iterate fail msg k rest hp hw =>
      have hf := iteration_frame msg fail k p.st
      refine ⟨?_, ?_, ?_⟩
      · show c < (iteration msg fail k p.st).next
        rw [hf.1]
        exact hlt
      · show c ∉ keys (iteration msg fail k p.st).clients
        rw [hf.2.2.2.2.2.1]
        exact fun h1 => hk h1.1
      · show writtenTo c (iteration msg fail k p.st) = writtenTo c p.st
        by_cases hck : c = k
        · subst hck
          rw [hf.2.2.2.2.2.2.2, if_neg (fun h1 => hk h1.1), List.append_nil]
        · exact hf.2.2.2.2.2.2.1 c hck

lemma pgone_prun : ∀ (ops : List Op) (p p' : Proc) (c : Conn), PInv p →
    prun p ops = some p' → c < p.st.next → c ∉ keys p.st.clients →
    c < p'.st.next ∧ c ∉ keys p'.st.clients ∧ writtenTo c p'.st = writtenTo c p.st := by
  intro ops
  induction ops with
  | nil =>
      intro p p' c _ hr hlt hk
      rw [← Option.some.inj hr]
      exact ⟨hlt, hk, rfl⟩
  | cons op ops ih =>
      intro p p' c h hr hlt hk
      simp only [prun] at hr
      cases hs : pstep p op with
      | none => simp [hs] at hr
      | some p1 =>
          simp only [hs] at hr
          have t := pstep_trans p p1 op hs
          obtain ⟨a1, a2, a3⟩ := pgone_trans p p1 op c t hlt hk
          obtain ⟨b1, b2, b3⟩ := ih p1 p' c (pinv_trans p p1 op h t) hr a1 a2
          exact ⟨b1, b2, b3.trans a3⟩

/-- The only steps that remove a key from `clients`: the completion of the
delete of its own handler, begun when its read failed, and an iteration of
the relay loop on that key in which the write fails. -/
lemma removed_by (p p' : Proc) (op : Op) (c : Conn) (t : Trans p op p')
    (hc : c ∈ keys p.st.clients) (hc' : c ∉ keys p'.st.clients) :
    (op = Op.deleted c ∧ p.writer = some (c, MapWrite.delete)) ∨
      (op = Op.iter true ∧ ∃ m rest, p.pass = some (m, c :: rest)) := by
  cases t with
  | crashInsert w hw => exact absurd hc hc'
  | crashDelete ws w hw => exact absurd hc hc'
  | crashIter fail w hw => exact absurd hc hc'
  | exit => exact absurd hc hc'
  | beginInsert hw => exact absurd hc hc'
  | endInsert pos hw =>
      exfalso
      apply hc'
      show c ∈ keys (upgrade true p.st).clients
      simp only [upgrade, if_true]
      rw [mem_keys_mapSet]
      exact Or.inr hc
  | send ws msg hh hs hw => exact absurd hc hc'
  | beginDelete ws hh hs hw => exact absurd hc hc'
  | endDelete ws hw =>
      have hc2 : c ∉ keys (mapDelete p.st.clients ws) := hc'
      rw [mem_keys_mapDelete] at hc2
      have hcw : c = ws := by
        by_contra hne
        exact hc2 ⟨hc, hne⟩
      subst hcw
      exact Or.inl ⟨rfl, hw⟩
  | receive order x msg rest ht hp hb => exact absurd hc hc'
  | iterate fail msg k rest hp hw =>
      have hf := iteration_frame msg fail k p.st
      have hc2 : c ∉ keys (iteration msg fail k p.st).clients := hc'
      rw [hf.2.2.2.2.2.1] at hc2
      have hcf : c = k ∧ fail = true := by
        by_contra hne
        exact hc2 ⟨hc, hne⟩
      obtain ⟨hck, hfl⟩ := hcf
      subst hck
      subst hfl
      exact Or.inr ⟨rfl, msg, rest, hp⟩

/-! ## The relay loop inside the interleaved executions -/

lemma prun_append : ∀ (a b : List Op) (p : Proc),
    prun p (a ++ b) = (prun p a).bind (fun q => prun q b) := by
  intro a
  induction a with
  | nil =>
      intro b p
      rfl
  | cons op a ih =>
      intro b p
      simp only [List.cons_append, prun]
      cases pstep p op with
      | none => rfl
      | some p1 => exact ih b p1

lemma rangeClients_cons_iteration (msg : Message) (fails : List Conn) (k : Conn)
    (rest : List Conn) (st : State) :
    rangeClients msg fails (k :: rest) st =
      rangeClients msg fails rest (iteration msg (decide (k ∈ fails)) k st) := by
  rw [iteration_eq]
  by_cases hk : k ∈ keys st.clients
  · by_cases hf : k ∈ fails <;> simp [rangeClients, writeClient, hk, hf]
  · simp [rangeClients, hk]

lemma rangeClients_exited (msg : Message) (fails : List Conn) :
    ∀ (ks : List Conn) (st : State), (rangeClients msg fails ks st).exited = st.exited := by
  intro ks
  induction ks with
  | nil =>
      intro st
      rfl
  | cons k rest ih =>
      intro st
      rw [rangeClients_cons_iteration, ih]
      exact (iteration_frame msg _ k st).2.2.2.1

/-- The iterations of a pass, made with no other goroutine in between, are
the range loop of `rangeClients`. -/
lemma prun_iters (msg : Message) (fails : List Conn) : ∀ (ks : List Conn) (p : Proc),
    p.st.exited = false → p.crashed = false → p.writer = none → p.pass = some (msg, ks) →
    prun p (ks.map (fun k => Op.iter (decide (k ∈ fails)))) =
      some { p with st := rangeClients msg fails ks p.st, pass := some (msg, []) } := by
  intro ks
  induction ks with
  | nil =>
      intro p _ _ _ hp
      obtain ⟨st, w, pass, cr⟩ := p
      simp only at hp
      subst hp
      rfl
  | cons k rest ih =>
      intro p hex hcr hw hp
      have hne : ¬ (p.st.exited = true ∨ p.crashed = true) := by
        rw [hex, hcr]
        simp
      have hs : pstep p (Op.iter (decide (k ∈ fails))) =
          some { p with st := iteration msg (decide (k ∈ fails)) k p.st,
                        pass := some (msg, rest) } := by
        simp only [pstep, if_neg hne, hp, hw]
      have hex1 : (iteration msg (decide (k ∈ fails)) k p.st).exited = false := by
        rw [(iteration_frame msg _ k p.st).2.2.2.1]
        exact hex
      have h1 := ih { p with st := iteration msg (decide (k ∈ fails)) k p.st,
                             pass := some (msg, rest) } hex1 hcr hw rfl
      simp only [List.map_cons, prun, hs]
      rw [h1, rangeClients_cons_iteration]

/-- One round of `handleMessages`, as steps of the interleaved process. -/
lemma prun_passOps (order fails : List Conn) (p : Proc) (st' : State)
    (hex : p.st.exited = false) (hcr : p.crashed = false) (hw : p.writer = none)
    (ht : todo p = []) (hr : relayRound order fails p.st = some st') :
    st'.exited = false ∧
      ∃ m, prun p (passOps order fails) = some { p with st := st', pass := some (m, []) } := by
  obtain ⟨x, m, rest, hb, hperm⟩ := relayRound_some order fails p.st st' hr
  have hne : ¬ (p.st.exited = true ∨ p.crashed = true) := by
    rw [hex, hcr]
    simp
  have hst' : st' = rangeClients m fails order { p.st with broadcast := rest } := by
    simp only [relayRound, hb, hperm, if_true] at hr
    exact (Option.some.inj hr).symm
  have hs : pstep p (Op.recv order) =
      some { p with st := { p.st with broadcast := rest }, pass := some (m, order) } := by
    have hen : todo p = [] ∧ order.Perm (keys p.st.clients) := ⟨ht, hperm⟩
    unfold pstep
    rw [if_neg hne]
    simp only [if_pos hen]
    rw [hb]
  have h1 := prun_iters m fails order
    { p with st := { p.st with broadcast := rest }, pass := some (m, order) } hex hcr hw rfl
  refine ⟨?_, m, ?_⟩
  · rw [hst', rangeClients_exited]
    exact hex
  · simp only [passOps, prun, hs]
    rw [h1, hst']

/-- The rounds of `handleMessages`, as steps of the interleaved process. -/
lemma prun_relayOps : ∀ (sched : List (List Conn × List Conn)) (p : Proc) (st' : State),
    p.st.exited = false → p.crashed = false → p.writer = none → todo p = [] →
    handleMessages sched p.st = some st' →
    ∃ p', prun p (relayOps sched) = some p' ∧ p'.st = st' ∧ p'.writer = none ∧
      todo p' = [] ∧ p'.crashed = false := by
  intro sched
  induction sched with
  | nil =>
      intro p st' _ hcr hw ht hr
      exact ⟨p, rfl, Option.some.inj hr, hw, ht, hcr⟩
  | cons of sched ih =>
      obtain ⟨order, fails⟩ := of
      intro p st' hex hcr hw ht hr
      simp only [handleMessages] at hr
      cases h1 : relayRound order fails p.st with
      | none => simp [h1] at hr
      | some st1 =>
          simp only [h1] at hr
          obtain ⟨hex1, m, hp⟩ := prun_passOps order fails p st1 hex hcr hw ht h1
          obtain ⟨p', hp', e1, e2, e3, e4⟩ :=
            ih { p with st := st1, pass := some (m, []) } st' hex1 hcr hw rfl hr
          refine ⟨p', ?_, e1, e2, e3, e4⟩
          simp only [relayOps]
          rw [prun_append, hp]
          exact hp'

/-- A serial step is a sequence of steps of the interleaved process. -/
lemma step_is_prun (st st' : State) (ev : Event) (p : Proc) (hst : p.st = st)
    (hcr : p.crashed = false) (hw : p.writer = none) (ht : todo p = [])
    (hs : step st ev = some st') :
    ∃ p', prun p (opsOf ev) = some p' ∧ p'.st = st' ∧ p'.crashed = false ∧
      p'.writer = none ∧ todo p' = [] := by
  subst hst
  unfold step at hs
  by_cases hex : p.st.exited = true
  · simp [hex] at hs
  have hex' : p.st.exited = false := by simpa using hex
  have hne : ¬ (p.st.exited = true ∨ p.crashed = true) := by
    rw [hex', hcr]
    simp
  simp only [hex, if_false] at hs
  cases ev with
  | connect ok =>
      simp only [handleConnections] at hs
      cases ok with
      | false =>
          refine ⟨{ p with st := upgrade false p.st }, ?_, Option.some.inj hs, hcr, hw, ht⟩
          simp only [opsOf, prun, pstep, if_neg hne]
      | true =>
          refine ⟨{ p with st := upgrade true p.st }, ?_, Option.some.inj hs, hcr, hw, ht⟩
          have h1 : pstep p (Op.connect true) =
              some { p with writer := some (p.st.next, MapWrite.insert) } := by
            simp only [pstep, if_neg hne, hw]
          have h2 : pstep { p with writer := some (p.st.next, MapWrite.insert) }
              (Op.registered none) = some { p with st := upgrade true p.st, writer := none } := by
            simp only [pstep, if_neg hne, if_true]
            cases p.pass <;> rfl
          simp only [opsOf, prun, h1, h2]
          rw [← hw]
  | read ws r =>
      simp only [handleConnections] at hs
      by_cases hen : ws ∈ p.st.handlers ∧ ws ∉ senders p.st
      swap
      · rw [if_neg hen] at hs
        exact Option.noConfusion hs
      rw [if_pos hen] at hs
      have hen' : ws ∈ p.st.handlers ∧ ws ∉ senders p.st ∧
          p.writer ≠ some (ws, MapWrite.delete) := by
        refine ⟨hen.1, hen.2, ?_⟩
        rw [hw]
        exact fun h => Option.noConfusion h
      cases r with
      | some msg =>
          refine ⟨{ p with st := readLoop ws (some msg) p.st }, ?_, Option.some.inj hs, hcr, hw,
            ht⟩
          simp only [opsOf, prun, pstep, if_neg hne, if_pos hen']
      | none =>
          refine ⟨{ p with st := readLoop ws none p.st }, ?_, Option.some.inj hs, hcr, hw, ht⟩
          have h1 : pstep p (Op.read ws none) =
              some { p with writer := some (ws, MapWrite.delete) } := by
            unfold pstep
            rw [if_neg hne]
            simp only [if_pos hen']
            rw [hw]
          have h2 : pstep { p with writer := some (ws, MapWrite.delete) } (Op.deleted ws) =
              some { p with st := readLoop ws none p.st, writer := none } := by
            simp only [pstep, if_neg hne, if_true]
          simp only [opsOf, prun, h1, h2]
          rw [← hw]
  | relay order fails =>
      simp only at hs
      obtain ⟨_, m, hp⟩ := prun_passOps order fails p st' hex' hcr hw ht hs
      exact ⟨_, hp, rfl, hcr, hw, rfl⟩

/-- Every serial execution is an execution of the interleaved process: the
one in which each goroutine finishes what it began before another runs. -/
lemma run_is_prun : ∀ (evs : List Event) (st st' : State) (p : Proc), p.st = st →
    p.crashed = false → p.writer = none → todo p = [] → run st evs = some st' →
    ∃ ops p', prun p ops = some p' ∧ p'.st = st' ∧ p'.crashed = false ∧
      p'.writer = none ∧ todo p' = [] := by
  intro evs
  induction evs with
  | nil =>
      intro st st' p hst hcr hw ht hr
      exact ⟨[], p, rfl, hst.trans (Option.some.inj hr), hcr, hw, ht⟩
  | cons ev evs ih =>
      intro st st' p hst hcr hw ht hr
      simp only [run] at hr
      cases hs : step st ev with
      | none => simp [hs] at hr
      | some st1 =>
          simp only [hs] at hr
          obtain ⟨p1, a1, a2, a3, a4, a5⟩ := step_is_prun st st1 ev p hst hcr hw ht hs
          obtain ⟨ops, p', b1, b2, b3, b4, b5⟩ := ih st1 st' p1 a2 a3 a4 a5 hr
          refine ⟨opsOf ev ++ ops, p', ?_, b2, b3, b4, b5⟩
          rw [prun_append, a1]
          exact b1

/-! ## Order of relay -/

lemma enqueued_cons (op : Op) (ops : List Op) :
    enqueued (op :: ops) = enqueued [op] ++ enqueued ops := by
  cases op with
  | read ws r => cases r <;> simp [enqueued]
  | _ => simp [enqueued]

lemma rounds_cons (op : Op) (ops : List Op) :
    rounds (op :: ops) = rounds [op] + rounds ops := by
  cases op with
  | recv order => simp [rounds, Nat.add_comm]
  | _ => simp [rounds]

lemma rounds_append (a b : List Op) : rounds (a ++ b) = rounds a + rounds b := by
  induction a with
  | nil => simp [rounds]
  | cons op a ih =>
      rw [List.cons_append, rounds_cons, ih, rounds_cons op a, Nat.add_assoc]

lemma rounds_iters (f : Conn → Bool) (ks : List Conn) :
    rounds (ks.map (fun k => Op.iter (f k))) = 0 := by
  induction ks with
  | nil => rfl
  | cons k ks ih => simpa [rounds] using ih

lemma rounds_relayOps (sched : List (List Conn × List Conn)) :
    rounds (relayOps sched) = sched.length := by
  induction sched with
  | nil => rfl
  | cons of sched ih =>
      obtain ⟨order, fails⟩ := of
      simp only [relayOps, passOps, List.cons_append, List.length_cons]
      rw [rounds_cons, rounds_append, rounds_iters, ih]
      simp [rounds, Nat.add_comm]

lemma pnext_le (p p' : Proc) (op : Op) (t : Trans p op p') : p.st.next ≤ p'.st.next := by
  cases t with
  | endInsert pos hw =>
      show p.st.next ≤ (upgrade true p.st).next
      simp [upgrade]
  | iterate fail msg k rest hp hw =>
      show p.st.next ≤ (iteration msg fail k p.st).next
      rw [(iteration_frame msg fail k p.st).1]
  | _ => exact le_refl _

lemma owed_produce (p : Proc) (c ws : Conn) (pos : Option Nat) (st : State)
    (w : Option (Conn × MapWrite)) (hne : c ≠ ws) :
    owed c { p with st := st, writer := w, pass := produce ws pos p.pass } = owed c p := by
  rcases produce_spec ws pos p.pass with h | ⟨m, rest, i, hp, h⟩
  · simp only [owed, h]
  · rw [hp] at h
    simp only [owed, hp, h]
    have : c ∈ rest.take i ++ ws :: rest.drop i ↔ c ∈ rest := by
      rw [(insert_perm ws i rest).mem_iff, List.mem_cons]
      exact ⟨fun h1 => h1.resolve_left hne, Or.inr⟩
    simp only [this]

/-- One step, seen from a connection registered before and after it. -/
lemma pfifo_trans (p p' : Proc) (op : Op) (c : Conn) (h : PInv p) (t : Trans p op p')
    (hc : c ∈ keys p.st.clients) (hc' : c ∈ keys p'.st.clients) :
    ∃ R, R ++ pending p'.st = pending p.st ++ enqueued [op] ∧ R.length = rounds [op] ∧
      writtenTo c p'.st ++ owed c p' = writtenTo c p.st ++ owed c p ++ R := by
  cases t with
  | crashInsert w hw => exact ⟨[], by simp [enqueued], rfl, by simp [owed]⟩
  | crashDelete ws w hw => exact ⟨[], by simp [enqueued], rfl, by simp [owed]⟩
  | crashIter fail w hw => exact ⟨[], by simp [enqueued], rfl, by simp [owed]⟩
  | exit => exact ⟨[], by simp [enqueued, upgrade, pending], rfl, by simp [owed, upgrade, writtenTo]⟩
  | beginInsert hw => exact ⟨[], by simp [enqueued], rfl, by simp [owed]⟩
  | endInsert pos hw =>
      have hne : c ≠ p.st.next := Nat.ne_of_lt (h.inv.keys_lt c hc)
      refine ⟨[], by simp [enqueued, upgrade, pending], rfl, ?_⟩
      rw [owed_produce p c p.st.next pos _ _ hne, List.append_nil]
      simp [upgrade, writtenTo]
  | send ws msg hh hs hw =>
      exact ⟨[], by simp [enqueued, readLoop, pending], rfl, by simp [owed, readLoop, writtenTo]⟩
  | beginDelete ws hh hs hw => exact ⟨[], by simp [enqueued], rfl, by simp [owed]⟩
  | endDelete ws hw =>
      exact ⟨[], by simp [enqueued, readLoop, pending], rfl, by simp [owed, readLoop, writtenTo]⟩
  | receive order x msg rest ht hp hb =>
      refine ⟨[msg], by simp [enqueued, pending, hb], rfl, ?_⟩
      have ho : owed c p = [] := by
        simp only [todo] at ht
        simp only [owed]
        cases hpass : p.pass with
        | none => rfl
        | some mr =>
            obtain ⟨m', r'⟩ := mr
            rw [hpass] at ht
            simp only at ht
            subst ht
            simp
      have hco : c ∈ order := hp.mem_iff.mpr hc
      rw [ho]
      simp [owed, hco, writtenTo]
  | iterate fail msg k rest hp hw =>
      have hf := iteration_frame msg fail k p.st
      have hnd : (k :: rest).Nodup := by
        have := h.todo_nodup
        simpa only [todo, hp] using this
      refine ⟨[], by simp [enqueued, pending, hf.2.2.1], rfl, ?_⟩
      rw [List.append_nil]
      show writtenTo c (iteration msg fail k p.st) ++ (if c ∈ rest then [msg] else []) =
        writtenTo c p.st ++ owed c p
      have ho : owed c p = if c ∈ k :: rest then [msg] else [] := by simp only [owed, hp]
      rw [ho]
      by_cases hck : c = k
      · subst hck
        have hnf : fail = false := by
          have h1 : c ∈ keys (iteration msg fail c p.st).clients := hc'
          rw [hf.2.2.2.2.2.1] at h1
          cases fail with
          | false => rfl
          | true => exact absurd ⟨rfl, rfl⟩ h1.2
        have hcr : c ∉ rest := (List.nodup_cons.mp hnd).1
        rw [hf.2.2.2.2.2.2.2, if_pos ⟨hc, hnf⟩, if_neg hcr, if_pos (List.mem_cons_self _ _),
          List.append_nil]
      · rw [hf.2.2.2.2.2.2.1 c hck]
        have : c ∈ k :: rest ↔ c ∈ rest := by
          rw [List.mem_cons]
          exact ⟨fun h1 => h1.resolve_left hck, Or.inr⟩
        simp only [this]

/-- Along any interleaved execution, the messages the relay loop received are
a prefix, in order, of what was and what came on the channel, and a
connection registered at both ends has been written exactly those, the
current one excepted while its pass has the connection still to come. -/
lemma pfifo_prun : ∀ (ops : List Op) (p p' : Proc) (c : Conn), PInv p →
    prun p ops = some p' → c ∈ keys p.st.clients → c ∈ keys p'.st.clients →
    ∃ R, R ++ pending p'.st = pending p.st ++ enqueued ops ∧ R.length = rounds ops ∧
      writtenTo c p'.st ++ owed c p' = writtenTo c p.st ++ owed c p ++ R := by
  intro ops
  induction ops with
  | nil =>
      intro p p' c _ hr _ _
      rw [← Option.some.inj hr]
      exact ⟨[], by simp [enqueued], rfl, by simp⟩
  | cons op ops ih =>
      intro p p' c h hr hc hc'
      simp only [prun] at hr
      cases hs : pstep p op with
      | none => simp [hs] at hr
      | some p1 =>
          simp only [hs] at hr
          have t := pstep_trans p p1 op hs
          have hinv1 := pinv_trans p p1 op h t
          have hc1 : c ∈ keys p1.st.clients := by
            by_contra hn
            have hlt : c < p1.st.next := lt_of_lt_of_le (h.inv.keys_lt c hc) (pnext_le p p1 op t)
            exact (pgone_prun ops p1 p' c hinv1 hr hlt hn).2.1 hc'
          obtain ⟨d1, e1, l1, w1⟩ := pfifo_trans p p1 op c h t hc hc1
          obtain ⟨d2, e2, l2, w2⟩ := ih p1 p' c hinv1 hr hc1 hc'
          refine ⟨d1 ++ d2, ?_, ?_, ?_⟩
          · rw [enqueued_cons, List.append_assoc, e2, ← List.append_assoc, e1,
              List.append_assoc]
          · rw [rounds_cons, List.length_append, l1, l2]
          · rw [w2, w1, List.append_assoc]

/-- With enough rounds and no failing write, `handleMessages` returns: it
drains the channel and writes the pending messages, in order, to every
registered connection. -/
lemma handleMessages_drains : ∀ (orders : List (List Conn)) (st : State),
    (keys st.clients).Nodup → orders.length = (pending st).length →
    (∀ o ∈ orders, o.Perm (keys st.clients)) →
    ∃ st', handleMessages (orders.map (fun o => (o, []))) st = some st' ∧
      pending st' = [] ∧ st'.clients = st.clients ∧
      (∀ d ∈ keys st.clients, writtenTo d st' = writtenTo d st ++ pending st) := by
  intro orders
  induction orders with
  | nil =>
      intro st _ hlen _
      have hp : pending st = [] := List.length_eq_zero.mp hlen.symm
      exact ⟨st, rfl, hp, rfl, fun d _ => by rw [hp, List.append_nil]⟩
  | cons o os ih =>
      intro st hnd hlen hperm
      have hpo : o.Perm (keys st.clients) := hperm o (List.mem_cons_self _ _)
      have hndo : o.Nodup := hpo.nodup_iff.mpr hnd
      cases hb : st.broadcast with
      | nil => simp [pending, hb] at hlen
      | cons e rest =>
          obtain ⟨x, m⟩ := e
          have hround := relayRound_eq o [] st x m rest hb hnd hpo
          have hcl : st.clients.filter (fun e => decide (¬ (e.1 ∈ o ∧ False))) = st.clients := by
            rw [List.filter_eq_self]
            intro e _
            simp
          simp only [List.not_mem_nil, not_false_eq_true, decide_True, List.filter_true,
            decide_False, List.filter_false, List.map_nil, List.append_nil] at hround
          rw [hcl] at hround
          have hlen' : os.length = (rest.map Prod.snd).length := by
            simp only [pending, hb, List.map_cons, List.length_cons] at hlen
            exact Nat.succ.inj hlen
          obtain ⟨st', h1, h2, h3, h4⟩ := ih
            { st with broadcast := rest, written := st.written ++ o.map (fun c => (c, m)) }
            hnd hlen' (fun o' ho' => hperm o' (List.mem_cons_of_mem _ ho'))
          refine ⟨st', ?_, h2, h3, ?_⟩
          · simp only [List.map_cons, handleMessages, hround]
            exact h1
          · intro d hd
            rw [h4 d hd]
            have hdo : d ∈ o := hpo.mem_iff.mpr hd
            have hw := writtenTo_append d { st with broadcast := rest }
              (o.map (fun c => (c, m)))
            rw [writes_of_pass m d o hndo, if_pos hdo] at hw
            have hw' : writtenTo d
                { st with broadcast := rest, written := st.written ++ o.map (fun c => (c, m)) }
                = writtenTo d st ++ [m] := by
              simpa [writtenTo] using hw
            rw [hw']
            simp [pending, hb]

/-- The counts of `Close()` calls per goroutine hold in the interleaved
executions as they do in the serial ones. -/
lemma close_counts_interleaved (ops : List Op) (p : Proc) (c : Conn)
    (h : prun pinit ops = some p) :
    closeCountBy Closer.handler c p.st = (if c ∈ p.st.readErrs then 1 else 0) ∧
      closeCountBy Closer.relay c p.st = (if c ∈ p.st.writeErrs then 1 else 0) ∧
      closeCount c p.st ≤ 2 := by
  have hinv := (pinv_prun ops pinit p pinv_init h).inv
  have h1 : closeCountBy Closer.handler c p.st = (if c ∈ p.st.readErrs then 1 else 0) := by
    rw [hinv.closed_handler c, count_of_nodup c _ hinv.readErrs_nodup]
  have h2 : closeCountBy Closer.relay c p.st = (if c ∈ p.st.writeErrs then 1 else 0) := by
    rw [hinv.closed_relay c, count_of_nodup c _ hinv.writeErrs_nodup]
  refine ⟨h1, h2, ?_⟩
  rw [closeCount_split, h1, h2]
  split_ifs <;> omega

/-! ## Claims on the interleaved executions -/

/-- C9. Registry holds no closed connection.  The steps are those the claim
names: a handler's termination (delete, then the deferred close) is the one
step `Op.deleted`, the relay loop's handling of a write error (close, then
delete) is part of the one step `Op.iter`; handlers run between the
iterations of a pass.  In every process state reached from `pinit`: no
connection on which `Close()` was called is a key of `clients`; every
connection that was registered (its identity is below `next`) and is no
longer a key has had a `ReadJSON` or a `WriteJSON` error; and a step removes
a key only as the completion of the delete that its own handler began when
its read failed, or as an iteration of the relay loop on that key in which
the write fails. -/
theorem registry_holds_no_closed (ops : List Op) (p : Proc)
    (h : prun pinit ops = some p) :
    (∀ e ∈ p.st.closed, e.1 ∉ keys p.st.clients) ∧
      (∀ c, c < p.st.next → c ∉ keys p.st.clients →
        c ∈ p.st.readErrs ∨ c ∈ p.st.writeErrs) ∧
      (∀ op p' c, pstep p op = some p' → c ∈ keys p.st.clients → c ∉ keys p'.st.clients →
        (op = Op.deleted c ∧ p.writer = some (c, MapWrite.delete)) ∨
          (op = Op.iter true ∧ ∃ m rest, p.pass = some (m, c :: rest))) := by
  have hinv := pinv_prun ops pinit p pinv_init h
  exact ⟨fun e he => (hinv.inv.closed_gone e he).2, hinv.inv.gone_failed,
    fun op p' c hs hc hc' => removed_by p p' op c (pstep_trans p p' op hs) hc hc'⟩

/-- Witness of C9: the state `midPass`, inside a pass, after a handler
returned between two iterations. -/
theorem registry_holds_no_closed_witness :
    (∀ e ∈ midPass.st.closed, e.1 ∉ keys midPass.st.clients) ∧
      (∀ c, c < midPass.st.next → c ∉ keys midPass.st.clients →
        c ∈ midPass.st.readErrs ∨ c ∈ midPass.st.writeErrs) ∧
      (∀ op p' c, pstep midPass op = some p' → c ∈ keys midPass.st.clients →
        c ∉ keys p'.st.clients →
        (op = Op.deleted c ∧ midPass.writer = some (c, MapWrite.delete)) ∨
          (op = Op.iter true ∧ ∃ m rest, midPass.pass = some (m, c :: rest))) :=
  registry_holds_no_closed midPassOps midPass (by decide)

/-- C6, as stated, fails: two clients dial at the same time, both upgrades
succeed, the second handler begins `clients[ws] = true` while the first is
inside the same statement, and the process ends.  `clients` is empty and no
goroutine takes another step: neither connection ever appears in the
registry. -/
theorem registration_counterexample :
    ∃ p, prun pinit [Op.connect true, Op.connect true] = some p ∧
      p.crashed = true ∧ keys p.st.clients = [] ∧ (keys p.st.clients).count 0 = 0 ∧
      (∀ op, pstep p op = none) :=
  ⟨{ pinit with writer := some (0, MapWrite.insert), crashed := true }, by decide, rfl,
    by decide, by decide, fun _ => rfl⟩

/-- C6, amended.  In a running process state `p` reached from `pinit`: a
successful upgrade makes the handler begin `clients[ws] = true` at once, and
the process ends if a write to `clients` is in progress at that moment.
While a handler is inside this assignment its connection `ws` is not in
`clients`, has no reading handler, cannot read, has sent nothing and has been
written nothing, and no pass is to produce it; when the assignment completes
(`Op.registered`, which no overlapping access has prevented) `ws` is a key of
`clients` exactly once, its handler is running, and still nothing has been
sent by it or written to it.  Assigning `clients[c] = true` for a connection
`c` already registered leaves `clients` unchanged. -/
theorem registration_invariant (ops0 : List Op) (p : Proc)
    (h0 : prun pinit ops0 = some p) (hrun : p.st.exited = false) (hcr : p.crashed = false) :
    (∃ p1, pstep p (Op.connect true) = some p1 ∧ p1.st = p.st ∧ p1.pass = p.pass ∧
      (p.writer = none → p1.writer = some (p.st.next, MapWrite.insert) ∧ p1.crashed = false) ∧
      (p.writer ≠ none → p1.crashed = true)) ∧
    (∀ ws, p.writer = some (ws, MapWrite.insert) →
      (ws ∉ keys p.st.clients ∧ ws ∉ p.st.handlers ∧ ws ∉ senders p.st ∧
        writtenTo ws p.st = [] ∧ ws ∉ todo p ∧ (∀ r, pstep p (Op.read ws r) = none)) ∧
      (∀ pos, ∃ p2, pstep p (Op.registered pos) = some p2 ∧
        ws ∈ keys p2.st.clients ∧ (keys p2.st.clients).count ws = 1 ∧
        ws ∈ p2.st.handlers ∧ p2.st.broadcast = p.st.broadcast ∧ ws ∉ senders p2.st ∧
        writtenTo ws p2.st = [] ∧ p2.writer = none ∧ p2.crashed = false)) ∧
    (∀ c ∈ keys p.st.clients, mapSet p.st.clients c true = p.st.clients) := by
  have hinv := pinv_prun ops0 pinit p pinv_init h0
  have hne : ¬ (p.st.exited = true ∨ p.crashed = true) := by
    rw [hrun, hcr]
    simp
  have hfresh : p.st.next ∉ keys p.st.clients := fun hc => lt_irrefl _ (hinv.inv.keys_lt _ hc)
  have hnh : p.st.next ∉ p.st.handlers := fun hc => lt_irrefl _ (hinv.inv.handlers_lt _ hc)
  have hns : p.st.next ∉ senders p.st := fun hc => lt_irrefl _ (hinv.inv.senders_lt _ hc)
  have hnw : writtenTo p.st.next p.st = [] := by
    simp only [writtenTo, List.map_eq_nil_iff, List.filter_eq_nil_iff, decide_eq_true_eq]
    intro e he h1
    exact lt_irrefl _ (h1 ▸ hinv.inv.written_lt e he)
  refine ⟨?_, ?_, fun c hc => mapSet_of_mem p.st.clients c hc hinv.inv.vals⟩
  · cases hw : p.writer with
    | none =>
        refine ⟨{ p with writer := some (p.st.next, MapWrite.insert) }, ?_, rfl, rfl,
          fun _ => ⟨rfl, hcr⟩, fun hn => absurd rfl hn⟩
        simp only [pstep, if_neg hne, hw]
    | some w =>
        refine ⟨{ p with crashed := true }, ?_, rfl, rfl, ?_, fun _ => rfl⟩
        · simp only [pstep, if_neg hne, hw]
        · intro hn
          exact Option.noConfusion hn
  · intro ws hw
    have hws : ws = p.st.next := hinv.ins ws hw
    subst hws
    refine ⟨⟨hfresh, hnh, hns, hnw, fun hc => lt_irrefl _ (hinv.todo_lt _ hc), ?_⟩, ?_⟩
    · intro r
      have : ¬ (p.st.next ∈ p.st.handlers ∧ p.st.next ∉ senders p.st ∧
          p.writer ≠ some (p.st.next, MapWrite.delete)) := fun h1 => hnh h1.1
      simp only [pstep, if_neg hne, if_neg this]
    · intro pos
      have hinv' := inv_upgrade p.st true hinv.inv
      have hmem : p.st.next ∈ keys (upgrade true p.st).clients := by
        simp only [upgrade, if_true]
        rw [mem_keys_mapSet]
        exact Or.inl rfl
      refine ⟨{ p with st := upgrade true p.st, writer := none, pass := produce p.st.next pos p.pass },
        ?_, hmem, ?_, ?_, ?_, ?_, ?_, rfl, hcr⟩
      · simp only [pstep, if_neg hne, if_pos hw]
      · show (keys (upgrade true p.st).clients).count p.st.next = 1
        rw [count_of_nodup _ _ hinv'.nodup, if_pos hmem]
      · show p.st.next ∈ (upgrade true p.st).handlers
        simp [upgrade]
      · show (upgrade true p.st).broadcast = p.st.broadcast
        simp [upgrade]
      · show p.st.next ∉ senders (upgrade true p.st)
        simpa [upgrade, senders] using hns
      · show writtenTo p.st.next (upgrade true p.st) = []
        simpa [upgrade, writtenTo] using hnw

/-- Witness of the amended C6: a third client dials while a pass is in
progress; `insidePassRegistering` is the state inside its assignment. -/
theorem registration_invariant_witness :
    (∃ p1, pstep insidePassRegistering (Op.connect true) = some p1 ∧
      p1.st = insidePassRegistering.st ∧ p1.pass = insidePassRegistering.pass ∧
      (insidePassRegistering.writer = none →
        p1.writer = some (insidePassRegistering.st.next, MapWrite.insert) ∧
          p1.crashed = false) ∧
      (insidePassRegistering.writer ≠ none → p1.crashed = true)) ∧
    (∀ ws, insidePassRegistering.writer = some (ws, MapWrite.insert) →
      (ws ∉ keys insidePassRegistering.st.clients ∧ ws ∉ insidePassRegistering.st.handlers ∧
        ws ∉ senders insidePassRegistering.st ∧ writtenTo ws insidePassRegistering.st = [] ∧
        ws ∉ todo insidePassRegistering ∧
        (∀ r, pstep insidePassRegistering (Op.read ws r) = none)) ∧
      (∀ pos, ∃ p2, pstep insidePassRegistering (Op.registered pos) = some p2 ∧
        ws ∈ keys p2.st.clients ∧ (keys p2.st.clients).count ws = 1 ∧
        ws ∈ p2.st.handlers ∧ p2.st.broadcast = insidePassRegistering.st.broadcast ∧
        ws ∉ senders p2.st ∧ writtenTo ws p2.st = [] ∧ p2.writer = none ∧
        p2.crashed = false)) ∧
    (∀ c ∈ keys insidePassRegistering.st.clients,
      mapSet insidePassRegistering.st.clients c true = insidePassRegistering.st.clients) :=
  registration_invariant (insidePassOps ++ [Op.connect true]) insidePassRegistering
    (by decide) rfl rfl

/-- C10, as stated, fails.  First: with clients 0 and 1 registered and the
relay loop inside a pass that has written to 0 and has 1 still to come, the
read of client 1 fails and its handler's `delete(clients, 1)` begins and
completes; the pass is still in progress and `clients` has changed under it.
Second: a handler's insert that begins during that delete is not made to
wait, the process ends. -/
theorem mutual_exclusion_counterexample :
    ∃ p p' q, prun pinit [Op.connect true, Op.registered none, Op.connect true, Op.registered none,
        Op.read 0 (some hi), Op.recv [0, 1], Op.iter false] = some p ∧
      p.pass = some (hi, [1]) ∧ keys p.st.clients = [0, 1] ∧
      prun p [Op.read 1 none, Op.deleted 1] = some p' ∧
      p'.pass = some (hi, [1]) ∧ keys p'.st.clients = [0] ∧ p'.crashed = false ∧
      prun p [Op.read 1 none, Op.connect true] = some q ∧ q.crashed = true :=
  ⟨{ st := { clients := [(0, true), (1, true)], broadcast := [], next := 2, handlers := [0, 1],
             written := [(0, hi)], closed := [], readErrs := [], writeErrs := [],
             exited := false },
     writer := none, pass := some (hi, [1]), crashed := false },
   { st := { clients := [(0, true)], broadcast := [], next := 2, handlers := [0],
             written := [(0, hi)], closed := [(1, Closer.handler)], readErrs := [1],
             writeErrs := [], exited := false },
     writer := none, pass := some (hi, [1]), crashed := false },
   { st := { clients := [(0, true), (1, true)], broadcast := [], next := 2, handlers := [0, 1],
             written := [(0, hi)], closed := [], readErrs := [], writeErrs := [],
             exited := false },
     writer := some (1, MapWrite.delete), pass := some (hi, [1]), crashed := true },
   by decide, rfl, by decide, by decide, rfl, by decide, rfl, by decide, rfl⟩

/-- C10, amended.  The accesses to `clients` are not synchronized.  In every
running process state reached from `pinit`, whatever pass is in progress: a
new handler begins its insert at once, a handler whose read fails begins its
delete at once, and the relay loop makes its next iteration at once; none
waits, and the process ends when the access begins while a handler's write
is in progress.  A handler's write in progress completes whatever the relay
loop is doing, and the pass goes on over the changed map.  What the program
keeps all the same: at most one handler write is in progress, `clients` holds
one entry per key, and the keys a pass has still to produce are distinct. -/
theorem registry_access_unsynchronized (ops : List Op) (p : Proc)
    (h : prun pinit ops = some p) (hrun : p.st.exited = false) (hcr : p.crashed = false) :
    (∃ p', pstep p (Op.connect true) = some p' ∧ p'.st = p.st ∧ p'.pass = p.pass ∧
      (p.writer = none → p'.writer = some (p.st.next, MapWrite.insert) ∧ p'.crashed = false) ∧
      (p.writer ≠ none → p'.crashed = true)) ∧
    (∀ ws, ws ∈ p.st.handlers → ws ∉ senders p.st → p.writer ≠ some (ws, MapWrite.delete) →
      ∃ p', pstep p (Op.read ws none) = some p' ∧ p'.st = p.st ∧ p'.pass = p.pass ∧
        (p.writer = none → p'.writer = some (ws, MapWrite.delete) ∧ p'.crashed = false) ∧
        (p.writer ≠ none → p'.crashed = true)) ∧
    (∀ fail m k rest, p.pass = some (m, k :: rest) →
      ∃ p', pstep p (Op.iter fail) = some p' ∧
        (p.writer = none → p'.st = iteration m fail k p.st ∧ p'.pass = some (m, rest) ∧
          p'.crashed = false) ∧
        (p.writer ≠ none → p'.crashed = true)) ∧
    (∀ ws, p.writer = some (ws, MapWrite.delete) →
      ∃ p', pstep p (Op.deleted ws) = some p' ∧
        p'.st.clients = mapDelete p.st.clients ws ∧ p'.pass = p.pass ∧ p'.writer = none) ∧
    (∀ ws pos, p.writer = some (ws, MapWrite.insert) →
      ∃ p', pstep p (Op.registered pos) = some p' ∧
        p'.st.clients = mapSet p.st.clients ws true ∧ p'.writer = none) ∧
    ((keys p.st.clients).Nodup ∧ (todo p).Nodup) := by
  have hinv := pinv_prun ops pinit p pinv_init h
  have hne : ¬ (p.st.exited = true ∨ p.crashed = true) := by
    rw [hrun, hcr]
    simp
  refine ⟨?_, ?_, ?_, ?_, ?_, hinv.inv.nodup, hinv.todo_nodup⟩
  · cases hw : p.writer with
    | none =>
        refine ⟨{ p with writer := some (p.st.next, MapWrite.insert) }, ?_, rfl, rfl,
          fun _ => ⟨rfl, hcr⟩, fun hn => absurd rfl hn⟩
        simp only [pstep, if_neg hne, hw]
    | some w =>
        refine ⟨{ p with crashed := true }, ?_, rfl, rfl, ?_, fun _ => rfl⟩
        · simp only [pstep, if_neg hne, hw]
        · intro hn
          exact Option.noConfusion hn
  · intro ws hh hs hd
    have hen : ws ∈ p.st.handlers ∧ ws ∉ senders p.st ∧
        p.writer ≠ some (ws, MapWrite.delete) := ⟨hh, hs, hd⟩
    cases hw : p.writer with
    | none =>
        refine ⟨{ p with writer := some (ws, MapWrite.delete) }, ?_, rfl, rfl,
          fun _ => ⟨rfl, hcr⟩, fun hn => absurd rfl hn⟩
        unfold pstep
        rw [if_neg hne]
        simp only [if_pos hen]
        rw [hw]
    | some w =>
        refine ⟨{ p with crashed := true }, ?_, rfl, rfl, ?_, fun _ => rfl⟩
        · unfold pstep
          rw [if_neg hne]
          simp only [if_pos hen]
          rw [hw]
        · intro hn
          exact Option.noConfusion hn
  · intro fail m k rest hp
    cases hw : p.writer with
    | none =>
        refine ⟨{ p with st := iteration m fail k p.st, pass := some (m, rest) }, ?_,
          fun _ => ⟨rfl, rfl, hcr⟩, fun hn => absurd rfl hn⟩
        simp only [pstep, if_neg hne, hp, hw]
    | some w =>
        refine ⟨{ p with crashed := true }, ?_, ?_, fun _ => rfl⟩
        · simp only [pstep, if_neg hne, hp, hw]
        · intro hn
          exact Option.noConfusion hn
  · intro ws hw
    refine ⟨{ p with st := readLoop ws none p.st, writer := none }, ?_, rfl, rfl, rfl⟩
    simp only [pstep, if_neg hne, if_pos hw]
  · intro ws pos hw
    have hws : ws = p.st.next := hinv.ins ws hw
    subst hws
    refine ⟨{ p with st := upgrade true p.st, writer := none, pass := produce p.st.next pos p.pass },
      ?_, ?_, rfl⟩
    · simp only [pstep, if_neg hne, if_pos hw]
    · show (upgrade true p.st).clients = mapSet p.st.clients p.st.next true
      simp [upgrade]

/-- Witness of the amended C10: the state `insidePass`, inside a pass. -/
theorem registry_access_unsynchronized_witness :
    (∃ p', pstep insidePass (Op.connect true) = some p' ∧ p'.st = insidePass.st ∧
      p'.pass = insidePass.pass ∧
      (insidePass.writer = none →
        p'.writer = some (insidePass.st.next, MapWrite.insert) ∧ p'.crashed = false) ∧
      (insidePass.writer ≠ none → p'.crashed = true)) ∧
    (∀ ws, ws ∈ insidePass.st.handlers → ws ∉ senders insidePass.st →
      insidePass.writer ≠ some (ws, MapWrite.delete) →
      ∃ p', pstep insidePass (Op.read ws none) = some p' ∧ p'.st = insidePass.st ∧
        p'.pass = insidePass.pass ∧
        (insidePass.writer = none →
          p'.writer = some (ws, MapWrite.delete) ∧ p'.crashed = false) ∧
        (insidePass.writer ≠ none → p'.crashed = true)) ∧
    (∀ fail m k rest, insidePass.pass = some (m, k :: rest) →
      ∃ p', pstep insidePass (Op.iter fail) = some p' ∧
        (insidePass.writer = none → p'.st = iteration m fail k insidePass.st ∧
          p'.pass = some (m, rest) ∧ p'.crashed = false) ∧
        (insidePass.writer ≠ none → p'.crashed = true)) ∧
    (∀ ws, insidePass.writer = some (ws, MapWrite.delete) →
      ∃ p', pstep insidePass (Op.deleted ws) = some p' ∧
        p'.st.clients = mapDelete insidePass.st.clients ws ∧ p'.pass = insidePass.pass ∧
        p'.writer = none) ∧
    (∀ ws pos, insidePass.writer = some (ws, MapWrite.insert) →
      ∃ p', pstep insidePass (Op.registered pos) = some p' ∧
        p'.st.clients = mapSet insidePass.st.clients ws true ∧ p'.writer = none) ∧
    ((keys insidePass.st.clients).Nodup ∧ (todo insidePass).Nodup) :=
  registry_access_unsynchronized insidePassOps insidePass (by decide) rfl rfl

/-- C4, as stated, fails: clients 0 and 1 enqueue `m1` then `m2`; the relay
loop makes the round of `m1`; two further clients then dial at the same time,
their assignments to `clients` overlap and the process ends.  Connection 0
was registered throughout and has been written `m1` only; `m2` is still on
the channel and no goroutine takes another step, so no round is made for
it. -/
theorem fifo_counterexample :
    ∃ p, prun pinit [Op.connect true, Op.registered none, Op.connect true, Op.registered none,
        Op.read 0 (some m1), Op.read 1 (some m2), Op.recv [0, 1], Op.iter false, Op.iter false,
        Op.connect true, Op.connect true] = some p ∧
      p.crashed = true ∧ 0 ∈ keys p.st.clients ∧ pending p.st = [m2] ∧
      writtenTo 0 p.st = [m1] ∧ writtenTo 0 p.st ≠ [m1, m2] ∧ (∀ op, pstep p op = none) :=
  ⟨{ st := { clients := [(0, true), (1, true)], broadcast := [(1, m2)], next := 2,
             handlers := [0, 1], written := [(0, m1), (1, m1)], closed := [], readErrs := [],
             writeErrs := [], exited := false },
     writer := some (2, MapWrite.insert), pass := some (m1, []), crashed := true },
   by decide, rfl, by decide, by decide, by decide, by decide, fun _ => rfl⟩

/-- C4, amended.  Let `p` be a process state reached from `pinit`.
Order: along every execution from `p`, whatever the goroutines do in
between, the messages the relay loop receives are, in order and each once,
the first ones of those waiting on the channel in `p` followed by those
enqueued later, one per round begun; and a connection registered at the
start and at the end has been written exactly these messages in that order,
the current one excepted while its pass has the connection still to come.
Progress, while the process runs (no failed upgrade and no overlapping access
to `clients` has ended it): the relay loop, when it waits and a message is on
the channel, receives it and starts a pass in whatever order the runtime
picks; inside a pass, when no handler write is in progress, it makes its next
iteration, which writes the current message to the key if the key is still
registered and the write succeeds; and left to run alone with succeeding
writes, in `n` rounds for `n` waiting messages `M1, ..., Mn`, it drains the
channel and has written `M1, ..., Mn`, in this order, to every registered
connection. -/
theorem fifo_relay_ordering (ops0 : List Op) (p : Proc) (h0 : prun pinit ops0 = some p) :
    (∀ ops p' c, prun p ops = some p' → c ∈ keys p.st.clients → c ∈ keys p'.st.clients →
      ∃ relayed, relayed ++ pending p'.st = pending p.st ++ enqueued ops ∧
        relayed.length = rounds ops ∧
        writtenTo c p'.st ++ owed c p' = writtenTo c p.st ++ owed c p ++ relayed) ∧
    (p.st.exited = false → p.crashed = false →
      (∀ x m rest order, todo p = [] → p.st.broadcast = (x, m) :: rest →
        order.Perm (keys p.st.clients) →
        ∃ q, pstep p (Op.recv order) = some q ∧ q.pass = some (m, order) ∧
          q.st.broadcast = rest ∧ q.st.written = p.st.written ∧
          q.st.clients = p.st.clients ∧ q.crashed = false) ∧
      (∀ m k rest fail, p.pass = some (m, k :: rest) → p.writer = none →
        ∃ q, pstep p (Op.iter fail) = some q ∧ q.pass = some (m, rest) ∧
          q.st = iteration m fail k p.st ∧ q.crashed = false ∧
          (k ∈ keys p.st.clients → fail = false →
            writtenTo k q.st = writtenTo k p.st ++ [m])) ∧
      (∀ orders : List (List Conn), todo p = [] → p.writer = none →
        orders.length = (pending p.st).length →
        (∀ o ∈ orders, o.Perm (keys p.st.clients)) →
        ∃ q, prun p (relayOps (orders.map (fun o => (o, [])))) = some q ∧
          rounds (relayOps (orders.map (fun o => (o, [])))) = (pending p.st).length ∧
          pending q.st = [] ∧ q.st.clients = p.st.clients ∧ q.crashed = false ∧
          (∀ d ∈ keys p.st.clients, writtenTo d q.st = writtenTo d p.st ++ pending p.st))) := by
  have hinv := pinv_prun ops0 pinit p pinv_init h0
  refine ⟨fun ops p' c hr hc hc' => pfifo_prun ops p p' c hinv hr hc hc', ?_⟩
  intro hex hcr
  have hne : ¬ (p.st.exited = true ∨ p.crashed = true) := by
    rw [hex, hcr]
    simp
  refine ⟨?_, ?_, ?_⟩
  · intro x m rest order ht hb hperm
    have hen : todo p = [] ∧ order.Perm (keys p.st.clients) := ⟨ht, hperm⟩
    refine ⟨{ p with st := { p.st with broadcast := rest }, pass := some (m, order) }, ?_,
      rfl, rfl, rfl, rfl, hcr⟩
    unfold pstep
    rw [if_neg hne]
    simp only [if_pos hen]
    rw [hb]
  · intro m k rest fail hp hw
    refine ⟨{ p with st := iteration m fail k p.st, pass := some (m, rest) }, ?_, rfl, rfl, hcr,
      ?_⟩
    · simp only [pstep, if_neg hne, hp, hw]
    · intro hk hf
      show writtenTo k (iteration m fail k p.st) = writtenTo k p.st ++ [m]
      rw [(iteration_frame m fail k p.st).2.2.2.2.2.2.2, if_pos ⟨hk, hf⟩]
  · intro orders ht hw hlen hperm
    obtain ⟨st', h1, h2, h3, h4⟩ := handleMessages_drains orders p.st hinv.inv.nodup hlen hperm
    obtain ⟨q, hq, e1, _, _, e4⟩ :=
      prun_relayOps (orders.map (fun o => (o, []))) p st' hex hcr hw ht h1
    refine ⟨q, hq, ?_, ?_, ?_, e4, ?_⟩
    · rw [rounds_relayOps, List.length_map, hlen]
    · rw [e1]
      exact h2
    · rw [e1]
      exact h3
    · intro d hd
      rw [e1]
      exact h4 d hd

/-- Witness of the amended C4: `m1`, `m2`, `m3` wait on the channel of
`threeWaiting`; three rounds in three different orders write `m1, m2, m3` to
connection 1. -/
theorem fifo_relay_ordering_witness :
    ((∀ ops p' c, prun threeWaiting ops = some p' → c ∈ keys threeWaiting.st.clients →
      c ∈ keys p'.st.clients →
      ∃ relayed, relayed ++ pending p'.st = pending threeWaiting.st ++ enqueued ops ∧
        relayed.length = rounds ops ∧
        writtenTo c p'.st ++ owed c p' =
          writtenTo c threeWaiting.st ++ owed c threeWaiting ++ relayed) ∧
    (threeWaiting.st.exited = false → threeWaiting.crashed = false →
      (∀ x m rest order, todo threeWaiting = [] → threeWaiting.st.broadcast = (x, m) :: rest →
        order.Perm (keys threeWaiting.st.clients) →
        ∃ q, pstep threeWaiting (Op.recv order) = some q ∧ q.pass = some (m, order) ∧
          q.st.broadcast = rest ∧ q.st.written = threeWaiting.st.written ∧
          q.st.clients = threeWaiting.st.clients ∧ q.crashed = false) ∧
      (∀ m k rest fail, threeWaiting.pass = some (m, k :: rest) → threeWaiting.writer = none →
        ∃ q, pstep threeWaiting (Op.iter fail) = some q ∧ q.pass = some (m, rest) ∧
          q.st = iteration m fail k threeWaiting.st ∧ q.crashed = false ∧
          (k ∈ keys threeWaiting.st.clients → fail = false →
            writtenTo k q.st = writtenTo k threeWaiting.st ++ [m])) ∧
      (∀ orders : List (List Conn), todo threeWaiting = [] → threeWaiting.writer = none →
        orders.length = (pending threeWaiting.st).length →
        (∀ o ∈ orders, o.Perm (keys threeWaiting.st.clients)) →
        ∃ q, prun threeWaiting (relayOps (orders.map (fun o => (o, [])))) = some q ∧
          rounds (relayOps (orders.map (fun o => (o, [])))) =
            (pending threeWaiting.st).length ∧
          pending q.st = [] ∧ q.st.clients = threeWaiting.st.clients ∧ q.crashed = false ∧
          (∀ d ∈ keys threeWaiting.st.clients,
            writtenTo d q.st = writtenTo d threeWaiting.st ++ pending threeWaiting.st)))) ∧
    prun threeWaiting (relayOps [([0, 1, 2], []), ([2, 1, 0], []), ([1, 0, 2], [])])
      = some threeRelayed ∧
    writtenTo 1 threeRelayed.st = [m1, m2, m3] :=
  ⟨fifo_relay_ordering threeWaitingOps threeWaiting (by decide), by decide, by decide⟩

end GoChat
